import Mathlib

/-!
Verification development for the DocumentParse repository.

The Python sources are shallowly embedded as executable Lean definitions:

* `doc_parser/src/processing.py` — markdown postprocessing and the batch
  orchestrator (`postprocess_markdown`, `_process_batch`, `process_pdf_batch`);
* `docling/docling/pipeline/ocr_enhanced_pipeline.py` — the hybrid pipeline
  (`_get_layout_from_vlm`, `_process_table_region`, `_format_as_markdown`,
  the per-region loop of `_process_pages`).

Strings are modelled as `List Char`.  Python regular-expression substitution
(`re.sub`) is modelled by explicit left-to-right scanners with the exact
non-overlapping leftmost semantics of the two concrete patterns used in the
source.  Whitespace (`\s`, `str.strip`) is modelled by the six ASCII
whitespace characters; exotic Unicode whitespace is outside the model.
-/

namespace DP

/-- The six ASCII whitespace characters recognised by Python's `\s` and
`str.strip` (Unicode whitespace beyond ASCII is not modelled). -/
def isSpc (c : Char) : Bool :=
  c = ' ' || c = '\t' || c = '\n' || c = '\r' || c = Char.ofNat 11 || c = Char.ofNat 12

/-- `str.lstrip()` on the ASCII whitespace set. -/
def trimL (l : List Char) : List Char := l.dropWhile isSpc

/-- `str.rstrip()` on the ASCII whitespace set, written recursively. -/
def trimR : List Char → List Char
  | [] => []
  | c :: rest =>
    match trimR rest with
    | [] => if isSpc c then [] else [c]
    | d :: r => c :: d :: r

/-- `str.strip()`. -/
def trim (l : List Char) : List Char := trimR (trimL l)

/-- Python's `content.split('\n')` (always returns at least one segment). -/
def splitLines : List Char → List (List Char)
  | [] => [[]]
  | c :: rest =>
    match splitLines rest with
    | [] => [[c]]
    | l :: ls => if c = '\n' then [] :: l :: ls else (c :: l) :: ls

/-- Python's `'\n'.join(lines)`. -/
def joinLines : List (List Char) → List Char
  | [] => []
  | [l] => l
  | l :: l' :: ls => l ++ '\n' :: joinLines (l' :: ls)

/-- Substring test: `p` occurs contiguously inside `l`. -/
def hasSub (p : List Char) : List Char → Bool
  | [] => p.isEmpty
  | c :: rest => p.isPrefixOf (c :: rest) || hasSub p rest

/-! ### `postprocess_markdown` (doc_parser/src/processing.py, lines 12-23)

```python
def postprocess_markdown(content: str) -> str:
    content = re.sub(r'data:image/[^;]+;base64,[A-Za-z0-9+/=]+', '이미지)', content)
    content = re.sub(r'(^|\n)\s*\* ', r'\1- ', content)
    lines = []
    for line in content.split('\n'):
        s = line.strip()
        if ('×' in s or '+' in s) and s and not (s.startswith('$') and s.endswith('$')):
            lines.append(f"${s}$")
        else:
            lines.append(line)
    return "\n".join(lines).replace("```", "").strip()
```
-/

/-- The literal `data:image/` that opens the base64-image pattern. -/
def b64lit : List Char := "data:image/".toList

/-- The literal `;base64,` in the middle of the base64-image pattern. -/
def b64mid : List Char := ";base64,".toList

/-- Characters of the class `[A-Za-z0-9+/=]`. -/
def isB64 (c : Char) : Bool := c.isAlphanum || c = '+' || c = '/' || c = '='

/-- The replacement string `'이미지)'` of the first `re.sub`. -/
def b64repl : List Char := "이미지)".toList

/-- Attempt to match the regex `data:image/[^;]+;base64,[A-Za-z0-9+/=]+`
at the head of `l`; on success return the remainder after the match.
`[^;]+` cannot cross a `;`, so the greedy/backtracking behaviour of the
Python engine reduces to this deterministic scan: skip the literal, take
the non-`;` run (nonempty), then the `;base64,` literal, then a nonempty
greedy run of base64 characters. -/
def matchB64 (l : List Char) : Option (List Char) :=
  if b64lit.isPrefixOf l then
    if (((l.drop b64lit.length).takeWhile (fun c => c ≠ ';')).isEmpty) then none
    else if b64mid.isPrefixOf ((l.drop b64lit.length).dropWhile (fun c => c ≠ ';')) then
      if (((((l.drop b64lit.length).dropWhile (fun c => c ≠ ';')).drop b64mid.length).takeWhile isB64).isEmpty) then none
      else some ((((l.drop b64lit.length).dropWhile (fun c => c ≠ ';')).drop b64mid.length).dropWhile isB64)
    else none
  else none

theorem length_dropWhile_le {p : Char → Bool} {l : List Char} :
    (l.dropWhile p).length ≤ l.length := by
  induction l with
  | nil => simp [List.dropWhile]
  | cons c rest ih =>
    by_cases h : p c
    · simp [List.dropWhile, h]; omega
    · simp [List.dropWhile, h]

theorem length_dropWhile_lt {p : Char → Bool} {l : List Char}
    (h : ¬ (l.takeWhile p).isEmpty) : (l.dropWhile p).length < l.length := by
  cases l with
  | nil => simp [List.takeWhile] at h
  | cons c rest =>
    by_cases hc : p c
    · simp only [List.dropWhile, hc]
      have := length_dropWhile_le (p := p) (l := rest)
      simp; omega
    · simp [List.takeWhile, hc] at h

theorem matchB64_some_length {l r : List Char} (h : matchB64 l = some r) :
    r.length < l.length := by
  unfold matchB64 at h
  split at h
  case isFalse => exact absurd h (by simp)
  case isTrue hpre =>
  split at h
  case isTrue => exact absurd h (by simp)
  case isFalse hbody =>
  split at h
  case isFalse => exact absurd h (by simp)
  case isTrue hmid =>
  split at h
  case isTrue => exact absurd h (by simp)
  case isFalse htail =>
  have hr := Option.some.inj h
  subst hr
  have hlen : b64lit.length ≤ l.length := by
    have : b64lit <+: l := by
      rw [← List.isPrefixOf_iff_prefix]; exact hpre
    exact this.length_le
  have h1 : ((((l.drop b64lit.length).dropWhile (fun c => c ≠ ';')).drop b64mid.length).dropWhile isB64).length
      < (((l.drop b64lit.length).dropWhile (fun c => c ≠ ';')).drop b64mid.length).length :=
    length_dropWhile_lt htail
  have h2 : ((((l.drop b64lit.length).dropWhile (fun c => c ≠ ';')).drop b64mid.length)).length
      ≤ ((l.drop b64lit.length).dropWhile (fun c => c ≠ ';')).length := by
    simp [List.length_drop]
  have h3 : ((l.drop b64lit.length).dropWhile (fun c => c ≠ ';')).length
      ≤ (l.drop b64lit.length).length := length_dropWhile_le
  have h4 : (l.drop b64lit.length).length = l.length - b64lit.length := by
    simp [List.length_drop]
  have h5 : 0 < b64lit.length := by simp [b64lit]
  omega

/-- The scanner of `re.sub(r'data:image/[^;]+;base64,[A-Za-z0-9+/=]+', '이미지)', content)`:
at every position try the pattern; on a match emit the replacement and
resume after the match, otherwise copy one character. -/
def subB64 : List Char → List Char
  | [] => []
  | c :: rest =>
    match h : matchB64 (c :: rest) with
    | some r => b64repl ++ subB64 r
    | none => c :: subB64 rest
termination_by l => l.length
decreasing_by
  · exact matchB64_some_length h
  · simp

/-- The scanner of `re.sub(r'(^|\n)\s*\* ', r'\1- ', content)` as a state
machine.  `anchored = true` means the position right after `^` or after an
emitted `\n` is live and `pend` holds (reversed) the whitespace consumed so
far by `\s*`.  On `* ` the whole match (the pending whitespace plus `* `)
is replaced by `- `; any other non-space character kills the anchor, the
pending whitespace is emitted unchanged, and scanning continues (anchors
inside the pending whitespace fail on the same first non-space character,
so they need no re-examination). -/
def sbA : Bool → List Char → List Char → List Char
  | _, pend, [] => pend.reverse
  | anchored, pend, c :: rest =>
    if anchored then
      if c = '*' then
        match hr : rest with
        | ' ' :: r => '-' :: ' ' :: sbA false [] r
        | _ => pend.reverse ++ '*' :: sbA false [] rest
      else if isSpc c then sbA true (c :: pend) rest
      else pend.reverse ++ c :: sbA false [] rest
    else
      if c = '\n' then '\n' :: sbA true [] rest
      else c :: sbA false [] rest
termination_by _ _ l => l.length
decreasing_by
all_goals simp_wf
all_goals (try subst hr)
all_goals (try simp)
all_goals omega

/-- `re.sub(r'(^|\n)\s*\* ', r'\1- ', content)`: scanning starts anchored
at `^`. -/
def subBullets (l : List Char) : List Char := sbA true [] l

/-- `'×' in s or '+' in s`. -/
def hasOp (s : List Char) : Bool := s.contains '×' || s.contains '+'

/-- `s.startswith('$') and s.endswith('$')`. -/
def dollarWrapped (s : List Char) : Bool :=
  s.head? = some '$' && s.getLast? = some '$'

/-- The per-line transform of `postprocess_markdown`'s loop: wrap the
stripped line in `$…$` when it contains `×` or `+`, is nonempty, and is
not already wrapped. -/
def mathLine (line : List Char) : List Char :=
  if hasOp (trim line) && !(trim line).isEmpty && !dollarWrapped (trim line)
  then '$' :: (trim line ++ ['$'])
  else line

/-- `"\n".join(mathLine applied to content.split('\n'))`. -/
def mathLines (l : List Char) : List Char := joinLines ((splitLines l).map mathLine)

/-- The backtick character. -/
def tick : Char := Char.ofNat 96

/-- Python's `.replace("```", "")`: remove non-overlapping triples of
backticks, scanning left to right. -/
def removeTicks : List Char → List Char
  | [] => []
  | [c] => [c]
  | [c, d] => [c, d]
  | c :: d :: e :: rest =>
    if c = tick ∧ d = tick ∧ e = tick then removeTicks rest
    else c :: removeTicks (d :: e :: rest)

/-- The code-fence marker: three backticks. -/
def fence3 : List Char := [tick, tick, tick]

/-- No match of `\s*\* ` starts at the head of `l`: after skipping the
whitespace run, the text does not continue with `* `.  This is the
anchored-position invariant of the bullet rewrite. -/
def noStarHead (l : List Char) : Bool :=
  match l.dropWhile isSpc with
  | '*' :: ' ' :: _ => false
  | _ => true

/-- `noStarHead` holds right after every `\n` of `l`: no anchor position
inside `l` (other than the very start) matches `(^|\n)\s*\* `. -/
def noBulAuxP : List Char → Bool
  | [] => true
  | '\n' :: rest => noStarHead rest && noBulAuxP rest
  | _ :: rest => noBulAuxP rest

/-- The regex `(^|\n)\s*\* ` has no occurrence in `l`: neither at the
start anchor nor after any newline. -/
def noBul (l : List Char) : Bool := noStarHead l && noBulAuxP l

/-- `postprocess_markdown` on `List Char`: base64-image replacement, bullet
normalisation, per-line math wrapping, code-fence removal, final strip —
in the order of the source. -/
def postprocessL (l : List Char) : List Char :=
  trim (removeTicks (mathLines (subBullets (subB64 l))))

/-- `postprocess_markdown` (doc_parser/src/processing.py, lines 12-23). -/
def postprocess_markdown (s : String) : String := String.mk (postprocessL s.toList)

/-! ### Batch orchestrator (doc_parser/src/processing.py, lines 36-89)

`converter.convert` and the pdfium sub-document extraction are external
collaborators: for batch `k` with page window `w` their combined outcome is
modelled by `conv k w`, which either returns a result with a status
(`ConvOutcome.ok`, carrying the status and the markdown that
`result.document.export_to_markdown()` would produce) or raises
(`ConvOutcome.exc` with the exception message).  Everything `_process_batch`
does with that outcome is embedded below. -/

/-- A conversion status: `result.status.name` and `result.status.value`. -/
structure ConvStatus where
  name : String
  value : String
deriving DecidableEq

/-- Outcome of one batch's extraction + conversion: a status with the
exported markdown, or a raised exception with its message. -/
inductive ConvOutcome where
  | ok (status : ConvStatus) (markdown : String)
  | exc (message : String)
deriving DecidableEq

/-- The synthesized error block `f"\n\n---\n\n### {err}\n\n---\n\n"`. -/
def errBlock (err : String) : String := "\n\n---\n\n### " ++ err ++ "\n\n---\n\n"

/-- The failure text for a non-success status (processing.py line 59). -/
def statusFailText (st : ConvStatus) : String :=
  "  👎 배치 실패: " ++ st.name ++ " - " ++ st.value

/-- The failure text for a raised exception (processing.py line 64). -/
def excFailText (m : String) : String :=
  "  ❌ 배치 처리 중 예외 발생: " ++ m

/-- `_process_batch`: on `status.name == "SUCCESS"` postprocess the exported
markdown, otherwise (failure status, or any exception) return the
synthesized error block. -/
def process_batch (o : ConvOutcome) : String :=
  match o with
  | .ok st md =>
    if st.name = "SUCCESS" then postprocess_markdown md
    else errBlock (statusFailText st)
  | .exc m => errBlock (excFailText m)

/-- A batch whose conversion did not succeed (non-success status or raised
exception). -/
def isFailure : ConvOutcome → Bool
  | .ok st _ => st.name ≠ "SUCCESS"
  | .exc _ => true

/-- The loop `for start in range(0, n, b)` producing the page windows
`list(range(start, min(start + b, n)))`; `fuel` is a termination device
(with `b ≥ 1`, `fuel = n` always suffices). -/
def winAux (n b : Nat) : Nat → Nat → List (List Nat)
  | 0, _ => []
  | fuel + 1, s =>
    if s < n then List.range' s (min b (n - s)) :: winAux n b fuel (s + b) else []

/-- The page-index windows of `process_pdf_batch` for a document of `n`
pages and batch size `b`. -/
def batchWindows (n b : Nat) : List (List Nat) := winAux n b n 0

/-- The append loop of `process_pdf_batch`: one `_process_batch` result per
window, in order; `k` is the 0-based batch position (the source's
`batch_num` is `k + 1`). -/
def ppbAux (conv : Nat → List Nat → ConvOutcome) : List (List Nat) → Nat → List String
  | [], _ => []
  | w :: ws, k => process_batch (conv k w) :: ppbAux conv ws (k + 1)

/-- `process_pdf_batch` for an already-loaded source document of `n` pages:
the ordered list of per-batch result strings. -/
def process_pdf_batch (n b : Nat) (conv : Nat → List Nat → ConvOutcome) : List String :=
  ppbAux conv (batchWindows n b) 0

/-! ### JSON values and `json.loads`
(modelling the stdlib collaborator used by `_get_layout_from_vlm`)

The parser recognises null/booleans/integers/strings/arrays/objects with
the usual JSON surface syntax; floats and the full escape-sequence
repertoire of JSON strings are outside the model (`\X` is read as the
literal character `X`, which is exact for `\"` and `\\`). -/

inductive JVal where
  | jnull
  | jbool (b : Bool)
  | jnum (n : Int)
  | jstr (s : String)
  | jarr (elems : List JVal)
  | jobj (fields : List (String × JVal))

/-- `v == "s"` for a Python value of unknown type: true exactly when `v`
is the string `s`. -/
def jvalIsStr (v : JVal) (s : String) : Bool :=
  match v with
  | .jstr t => t = s
  | _ => false

/-- `v is None`: true exactly on JSON null. -/
def jvalIsNull : JVal → Bool
  | .jnull => true
  | _ => false

/-- The left-brace character (written numerically). -/
def braceL : Char := Char.ofNat 123

/-- The right-brace character (written numerically). -/
def braceR : Char := Char.ofNat 125

/-- Skip JSON whitespace. -/
def skipWs : List Char → List Char
  | [] => []
  | c :: rest => if isSpc c then skipWs rest else c :: rest

/-- Parse a JSON string body after the opening quote: returns the content
and the remainder after the closing quote. -/
def parseJStrAux : List Char → Option (List Char × List Char)
  | [] => none
  | c :: rest =>
    if c = '"' then some ([], rest)
    else if c = '\\' then
      match rest with
      | d :: r => (parseJStrAux r).map (fun p => (d :: p.1, p.2))
      | [] => none
    else (parseJStrAux rest).map (fun p => (c :: p.1, p.2))

/-- Numeric value of a digit run. -/
def digitsVal (l : List Char) : Nat := l.foldl (fun a c => a * 10 + (c.toNat - 48)) 0

/-- Parse a nonempty digit run. -/
def parseDigits (l : List Char) : Option (Nat × List Char) :=
  if (l.takeWhile Char.isDigit).isEmpty then none
  else some (digitsVal (l.takeWhile Char.isDigit), l.dropWhile Char.isDigit)

mutual

/-- Parse one JSON value; `fuel` bounds the nesting/locally consumed steps. -/
def parseJVal : Nat → List Char → Option (JVal × List Char)
  | 0, _ => none
  | fuel + 1, l =>
    match skipWs l with
    | [] => none
    | c :: rest =>
      if c = '[' then
        match skipWs rest with
        | ']' :: r => some (.jarr [], r)
        | _ => (parseJElems fuel rest).map (fun p => (JVal.jarr p.1, p.2))
      else if c = braceL then
        match skipWs rest with
        | d :: r =>
          if d = braceR then some (.jobj [], r)
          else (parseJFields fuel rest).map (fun p => (JVal.jobj p.1, p.2))
        | [] => none
      else if c = '"' then
        (parseJStrAux rest).map (fun p => (JVal.jstr (String.mk p.1), p.2))
      else if c = 't' then
        if "rue".toList.isPrefixOf rest then some (.jbool true, rest.drop 3) else none
      else if c = 'f' then
        if "alse".toList.isPrefixOf rest then some (.jbool false, rest.drop 4) else none
      else if c = 'n' then
        if "ull".toList.isPrefixOf rest then some (.jnull, rest.drop 3) else none
      else if c = '-' then
        (parseDigits rest).map (fun p => (JVal.jnum (-(p.1 : Int)), p.2))
      else if c.isDigit then
        (parseDigits (c :: rest)).map (fun p => (JVal.jnum (p.1 : Int), p.2))
      else none

/-- Parse the elements of a JSON array after its `[` (first element not yet
consumed). -/
def parseJElems : Nat → List Char → Option (List JVal × List Char)
  | 0, _ => none
  | fuel + 1, l =>
    match parseJVal fuel l with
    | none => none
    | some (v, r) =>
      match skipWs r with
      | ',' :: r2 => (parseJElems fuel r2).map (fun p => (v :: p.1, p.2))
      | ']' :: r2 => some ([v], r2)
      | _ => none

/-- Parse the fields of a JSON object after its opening brace (first field
not yet consumed). -/
def parseJFields : Nat → List Char → Option (List (String × JVal) × List Char)
  | 0, _ => none
  | fuel + 1, l =>
    match skipWs l with
    | '"' :: r =>
      match parseJStrAux r with
      | none => none
      | some (key, r2) =>
        match skipWs r2 with
        | ':' :: r3 =>
          match parseJVal fuel r3 with
          | none => none
          | some (v, r4) =>
            match skipWs r4 with
            | ',' :: r5 =>
              (parseJFields fuel r5).map (fun p => ((String.mk key, v) :: p.1, p.2))
            | d :: r5 => if d = braceR then some ([(String.mk key, v)], r5) else none
            | [] => none
        | _ => none
    | _ => none

end

/-- `json.loads`: parse a complete JSON document (surrounding whitespace
allowed, nothing else may follow). -/
def jsonLoads (s : String) : Option JVal :=
  match parseJVal (2 * s.length + 4) s.toList with
  | some (v, rest) => if (skipWs rest).isEmpty then some v else none
  | none => none

/-! ### Layout planner `_get_layout_from_vlm`
(docling/docling/pipeline/ocr_enhanced_pipeline.py, lines 133-178) -/

/-- The structured-layout instruction substituted into the copied VLM
options (ocr_enhanced_pipeline.py lines 141-161). -/
def layoutPrompt : String :=
  "Analyze the layout of the given image and return a JSON array of objects.\nEach object must have a \"type\" and \"bbox\".\n\n- \"type\": Can be one of:\n  - \"heading\": A title or subtitle.\n  - \"paragraph\": A block of plain text.\n  - \"list\": A bulleted or numbered list.\n  - \"table\": A data table.\n  - \"chart_bar\": A bar chart.\n  - \"chart_pie\": A pie chart.\n  - \"image\": A general image or photograph.\n  - \"other\": Anything else.\n\n- \"bbox\": An array of four numbers [x1, y1, x2, y2].\n\n- \"level\" (for \"heading\" type): A number from 1 to 6, representing the markdown heading level (e.g., 1 for #, 2 for ##).\n\n- \"style\" (for \"paragraph\" type): An array of strings, can contain \"bold\" or \"italic\" if the entire paragraph has that style.\n\nDo not return any text content, only the layout structure as a JSON object.\n"

/-- The VLM options actually used by the layout request: a deep copy of the
pipeline's shared options with only the prompt replaced
(`model_copy(deep=True)` plus the prompt assignment). -/
structure ApiVlmOptions where
  url : String
  headers : List (String × String)
  params : List (String × String)
  prompt : String
  response_format : String
  timeout : Nat
  concurrency : Nat
deriving DecidableEq

/-- The copied options with the layout instruction substituted. -/
def vlmOptionsUsed (opts : ApiVlmOptions) : ApiVlmOptions :=
  { opts with prompt := layoutPrompt }

/-- The fence cleanup of `_get_layout_from_vlm`:
`if vlm_response_text.strip().startswith("```json"): vlm_response_text = vlm_response_text.strip()[7:-4]`.
Python's slice `t[7:-4]` keeps characters `7 ≤ i < len t - 4`. -/
def fenceClean (resp : List Char) : List Char :=
  if "```json".toList.isPrefixOf (trim resp) then
    ((trim resp).take ((trim resp).length - 4)).drop 7
  else resp

/-- The parsing tail of `_get_layout_from_vlm`: fence cleanup, `json.loads`,
return the value if it is an array, otherwise (parse failure included) the
empty region list. -/
def parseLayout (respText : String) : List JVal :=
  match jsonLoads (String.mk (fenceClean respText.toList)) with
  | some (.jarr l) => l
  | _ => []

/-- `_get_layout_from_vlm`: no page image → `[]` without calling the VLM;
otherwise call the VLM (modelled by `vlm`) on the substituted copy of the
options and parse its response.  The second component is the pipeline's
shared `self.options.vlm_options` after the call. -/
def get_layout_from_vlm (opts : ApiVlmOptions) (vlm : ApiVlmOptions → String)
    (hasImage : Bool) : List JVal × ApiVlmOptions :=
  if hasImage then (parseLayout (vlm (vlmOptionsUsed opts)), opts)
  else ([], opts)

/-! ### Region resolver and markdown formatter
(docling/docling/pipeline/ocr_enhanced_pipeline.py, lines 72-253)

Image crops and the OCR / formula collaborators are abstracted: for a
region (or a table cell) `r`, `ocrTexts r` / `cellOcr r` is the list of
`cell.text` values the configured OCR engine detects on the corresponding
crop, and `formulaText r` is the formula model's output.  Bounding-box
*values* only determine the crop and are therefore absorbed into these
parameters; their *presence* is checked exactly as the source does. -/

/-- `region.get(key)` for a JSON object (first binding wins; the parser
keeps fields in order).  At call sites the source only applies `.get` to
dicts, any other receiver raising `AttributeError`, which call sites model
as `none`-propagation. -/
def jget (r : JVal) (key : String) : Option JVal :=
  match r with
  | .jobj fields => fields.lookup key
  | _ => none

/-- Python truthiness of a JSON value. -/
def jTruthy : JVal → Bool
  | .jnull => false
  | .jbool b => b
  | .jnum n => n ≠ 0
  | .jstr s => s ≠ ""
  | .jarr l => !l.isEmpty
  | .jobj f => !f.isEmpty

/-- Python list indexing: nonnegative indices from the front, negative
indices from the back, `none` = `IndexError`. -/
def pyIdx (len : Nat) (i : Int) : Option Nat :=
  if 0 ≤ i then (if i < (len : Int) then some i.toNat else none)
  else (if 0 ≤ i + (len : Int) then some (i + (len : Int)).toNat else none)

/-- `xs[i]` with Python index semantics. -/
def pyGet (xs : List α) (i : Int) : Option α :=
  match pyIdx xs.length i with
  | some j => xs.get? j
  | none => none

/-- `xs[i] = v` with Python index semantics. -/
def pySet (xs : List α) (i : Int) (v : α) : Option (List α) :=
  match pyIdx xs.length i with
  | some j => some (xs.set j v)
  | none => none

/-- `" ".join(texts)` and friends. -/
def joinSep (sep : String) : List String → String
  | [] => ""
  | [s] => s
  | s :: s' :: rest => s ++ sep ++ joinSep sep (s' :: rest)

/-- The value `cell.get(key, 0)` contributes to `max(...)`: the default `0`
when the key is missing, the integer when the value is an int (JSON
booleans are Python ints), and `none` — a `TypeError` from `max` — when a
non-integer value is present.  (JSON floats are outside the model.) -/
def cellNumD (cell : JVal) (key : String) : Option Int :=
  match cell with
  | .jobj _ =>
    match jget cell key with
    | none => some 0
    | some (.jnum n) => some n
    | some (.jbool b) => some (if b then 1 else 0)
    | some _ => none
  | _ => none

/-- `max(cell.get(key, 0) for cell in cells)`: `none` models the
`ValueError` on an empty cells collection and the `TypeError` on non-integer
values or non-dict cells. -/
def cellsMax (cells : List JVal) (key : String) : Option Int :=
  match cells.mapM (fun c => cellNumD c key) with
  | some [] => none
  | some (v :: vs) => some (vs.foldl max v)
  | none => none

/-- An int-valued cell coordinate (JSON booleans count as ints). -/
def jvalAsInt : JVal → Option Int
  | .jnum n => some n
  | .jbool b => some (if b then 1 else 0)
  | _ => none

/-- The fill loop of `_process_table_region`: for each declared cell, skip
it when `row`, `col` or `bbox` is missing (or JSON null, which Python reads
as `None`), otherwise OCR the cell crop, join the detected texts with a
single space and store the result at `[row][col]`.  `none` propagates a
raised exception (out-of-range index, non-integer index). -/
def fillCells (cellOcr : JVal → List String) :
    List (List String) → List JVal → Option (List (List String))
  | grid, [] => some grid
  | grid, cell :: rest =>
    match jget cell "row", jget cell "col", jget cell "bbox" with
    | some rv, some cv, some bv =>
      if jvalIsNull rv || jvalIsNull cv || jvalIsNull bv then
        fillCells cellOcr grid rest
      else
        match jvalAsInt rv, jvalAsInt cv with
        | some row, some col =>
          match pyGet grid row with
          | none => none
          | some rowList =>
            match pySet rowList col (joinSep " " (cellOcr cell)) with
            | none => none
            | some rowList' =>
              match pySet grid row rowList' with
              | none => none
              | some grid' => fillCells cellOcr grid' rest
        | _, _ => none
    | _, _, _ => fillCells cellOcr grid rest

/-- `_process_table_region`: `none` models a raised exception (in
particular the `ValueError` of `max()` on an empty or absent cells
collection).  Without a page image/size it returns the empty grid. -/
def process_table_region (hasImageSize : Bool) (region : JVal)
    (cellOcr : JVal → List String) : Option (List (List String)) :=
  if hasImageSize then
    match (match jget region "cells" with
           | none => some ([] : List JVal)
           | some (.jarr l) => some l
           | some _ => none) with
    | none => none
    | some cellsData =>
      match cellsMax cellsData "row", cellsMax cellsData "col" with
      | some maxRow, some maxCol =>
        fillCells cellOcr
          (List.replicate (maxRow + 1).toNat (List.replicate (maxCol + 1).toNat ""))
          cellsData
      | _, _ => none
  else some []

/-- Well-formedness of a declared cell's coordinate field as the claim
assumes it (zero-based): the key is absent or carries a nonnegative
integer. -/
def natField (cell : JVal) (key : String) : Bool :=
  match jget cell key with
  | none => true
  | some (.jnum n) => decide (0 ≤ n)
  | some _ => false

/-- A well-formed declared cell: a JSON object whose `row`/`col`, when
present, are nonnegative integers. -/
def wfCell (cell : JVal) : Bool :=
  (match cell with | .jobj _ => true | _ => false) &&
    natField cell "row" && natField cell "col"

/-- The cell writes grid position `(i, j)`: its `row`, `col` and `bbox`
are all present and non-null, with `row = i` and `col = j`. -/
def fillsAt (cell : JVal) (i j : Int) : Bool :=
  match jget cell "row", jget cell "col", jget cell "bbox" with
  | some rv, some cv, some bv =>
    !(jvalIsNull rv || jvalIsNull cv || jvalIsNull bv) &&
      jvalAsInt rv = some i && jvalAsInt cv = some j
  | _, _, _ => false

/-- The entry of a nested list at `(i, j)`. -/
def getEntry (g : List (List String)) (i j : Nat) : Option String :=
  (g.get? i).bind (fun row => row.get? j)

/-- The data argument of `_format_as_markdown`: a string for text-like
regions, the OCR grid for tables. -/
inductive FmtData where
  | str (s : String)
  | grid (g : List (List String))

/-- Python's `data.split('\\n')`: split on the two-character sequence
backslash–`n` (the source's string literal is escaped, so this is *not* a
split on newline characters). -/
def splitBN : List Char → List (List Char)
  | [] => [[]]
  | '\\' :: 'n' :: rest => [] :: splitBN rest
  | c :: rest =>
    match splitBN rest with
    | [] => [[c]]
    | l :: ls => (c :: l) :: ls

/-- Python's `"\\n".join`: join with the literal two-character sequence. -/
def joinBN : List (List Char) → List Char
  | [] => []
  | [l] => l
  | l :: l' :: ls => l ++ '\\' :: 'n' :: joinBN (l' :: ls)

/-- The `list` branch of `_format_as_markdown`:
`"\\n".join([f"- {line}" for line in data.split('\\n') if line.strip()])`. -/
def formatList (data : String) : String :=
  String.mk (joinBN (((splitBN data.toList).filter
    (fun line => !(trim line).isEmpty)).map (fun line => '-' :: ' ' :: line)))

/-- The `table` branch on a grid: header from row 0, one `---` per column
of row 0, body rows, each pipe-delimited. -/
def formatTable (g : List (List String)) : String :=
  match g with
  | [] => ""
  | row0 :: restRows =>
    "| " ++ joinSep " | " row0 ++ " |" ++ "\n" ++
    ("| " ++ joinSep " | " (List.replicate row0.length "---") ++ " |") ++ "\n" ++
    joinSep "\n" (restRows.map (fun row => "| " ++ joinSep " | " row ++ " |"))

/-- The `table` branch when `data` is (dynamically) a string: Python then
iterates the string's characters as rows — unreached by the pipeline's
callers, embedded for totality of the dynamic branch. -/
def formatTableStr (s : String) : String :=
  match s.toList with
  | [] => ""
  | c :: rest =>
    "| " ++ String.mk [c] ++ " |" ++ "\n" ++ "| --- |" ++ "\n" ++
    joinSep "\n" (rest.map (fun ch => "| " ++ String.mk [ch] ++ " |"))

/-- Python `repr` of a quote-free string (used only through `pyStrGrid`). -/
def pyRepr (s : String) : String := "'" ++ s ++ "'"

/-- Python `str()` of a list-of-lists-of-strings (the f-string rendering of
a grid in the non-table branches; unreached by the pipeline's callers). -/
def pyStrGrid (g : List (List String)) : String :=
  "[" ++ joinSep ", " (g.map (fun row => "[" ++ joinSep ", " (row.map pyRepr) ++ "]")) ++ "]"

/-- `str(data)` / the f-string rendering of `data`. -/
def fmtDataStr : FmtData → String
  | .str s => s
  | .grid g => pyStrGrid g

/-- `region.get("level", 1)` as used by `'#' * level`: `none` models the
`TypeError` on a non-integer present value. -/
def headingLevel (region : JVal) : Option Int :=
  match jget region "level" with
  | none => some 1
  | some (.jnum n) => some n
  | some (.jbool b) => some (if b then 1 else 0)
  | some _ => none

/-- `_format_as_markdown`: type-directed formatting; `none` models a raised
exception in a dynamic corner (`data.split` on a list, `'#' * level` with a
non-integer level). -/
def format_as_markdown (region : JVal) (data : FmtData) : Option String :=
  let rtype := (jget region "type").getD (.jstr "paragraph")
  if jvalIsStr rtype "heading" then
    match headingLevel region with
    | some lvl => some (String.mk (List.replicate lvl.toNat '#') ++ " " ++ fmtDataStr data)
    | none => none
  else if jvalIsStr rtype "list" then
    match data with
    | .str s => some (formatList s)
    | .grid _ => none
  else if jvalIsStr rtype "table" then
    match data with
    | .grid g => some (formatTable g)
    | .str s => some (formatTableStr s)
  else if jvalIsStr rtype "formula" then
    some ("$$\n" ++ fmtDataStr data ++ "\n$$")
  else if jvalIsStr rtype "chart_bar" || jvalIsStr rtype "chart_pie" || jvalIsStr rtype "image" then
    some ("![" ++ fmtDataStr data ++ "]")
  else
    some (fmtDataStr data)

/-- The per-region loop of `_process_pages`: skip regions with a falsy or
missing `type` or without a `bbox` key; resolve by type (table grid,
formula model, or OCR with texts joined by a single space); format; keep
nonempty fragments.  `none` propagates a raised exception (notably from
`_process_table_region`); a non-dict region raises on `region.get`. -/
def fragsGo (ocrTexts : JVal → List String) (formulaText : JVal → String)
    (cellOcr : JVal → List String) : List JVal → Option (List String)
  | [] => some []
  | region :: rest =>
    match region with
    | .jobj _ =>
      let rt := jget region "type"
      if (match rt with | none => true | some v => !jTruthy v) || (jget region "bbox").isNone then
        fragsGo ocrTexts formulaText cellOcr rest
      else
        let mdOpt : Option String :=
          if (rt.map (fun v => jvalIsStr v "table")).getD false then
            match process_table_region true region cellOcr with
            | none => none
            | some g => format_as_markdown region (.grid g)
          else if (rt.map (fun v => jvalIsStr v "formula")).getD false then
            format_as_markdown region (.str (formulaText region))
          else
            format_as_markdown region (.str (joinSep " " (ocrTexts region)))
        match mdOpt with
        | none => none
        | some md =>
          match fragsGo ocrTexts formulaText cellOcr rest with
          | none => none
          | some frs => some (if md = "" then frs else md :: frs)
    | _ => none

/-- The fragment list a page contributes in `_process_pages`: empty without
a page image/size, otherwise the per-region loop. -/
def pageFragments (hasImageAndSize : Bool) (regions : List JVal)
    (ocrTexts : JVal → List String) (formulaText : JVal → String)
    (cellOcr : JVal → List String) : Option (List String) :=
  if hasImageAndSize then fragsGo ocrTexts formulaText cellOcr regions
  else some []

/-- `page.predictions.vlm_response.text = "\n\n".join(page_markdown_elements)`. -/
def pageMarkdownText (frags : List String) : String := joinSep "\n\n" frags

example : jsonLoads "[1, 2]" = some (.jarr [.jnum 1, .jnum 2]) := rfl
example : jsonLoads "not json" = none := rfl
example : jsonLoads " [\"a\", true, null] " = some (.jarr [.jstr "a", .jbool true, .jnull]) := rfl
example : jsonLoads "[-12]" = some (.jarr [.jnum (-12)]) := rfl
example : parseLayout "```json\n[1]\n```" = [.jnum 1] := rfl
example : parseLayout "```\n[1]\n```" = [] := rfl
example : parseLayout "```json[1]```" = [] := rfl
example : parseLayout "[1]" = [.jnum 1] := rfl
example : parseLayout "not json" = [] := rfl
example : formatList "a\nb\n\n" = "- a\nb\n\n" := rfl
example : formatList "a\\nb\\n\\n" = "- a\\n- b" := rfl
example : format_as_markdown (.jobj [("type", .jstr "heading"), ("bbox", .jarr [])]) (.str "") = some "# " := rfl
example : format_as_markdown (.jobj [("type", .jstr "heading"), ("level", .jnum 3)]) (.str "Intro") = some "### Intro" := rfl
example : format_as_markdown (.jobj [("type", .jstr "formula")]) (.str "") = some "$$\n\n$$" := rfl
example : format_as_markdown (.jobj [("type", .jstr "image")]) (.str "") = some "![]" := rfl
example : format_as_markdown (.jobj [("type", .jstr "table")]) (.grid [["H1", "H2"], ["a", "b"]]) = some "| H1 | H2 |\n| --- | --- |\n| a | b |" := rfl
example : format_as_markdown (.jobj []) (.str "x") = some "x" := rfl
example :
    process_table_region true (.jobj [("cells", .jarr [])]) (fun _ => []) = none := rfl
example :
    process_table_region true
      (.jobj [("cells", .jarr [.jobj [("row", .jnum 1), ("col", .jnum 2), ("bbox", .jarr [.jnum 0])]])])
      (fun _ => ["t1", "t2"]) = some [["", "", ""], ["", "", "t1 t2"]] := rfl
example :
    process_table_region true
      (.jobj [("cells", .jarr [.jobj [("col", .jnum 2), ("bbox", .jarr [.jnum 0])],
                               .jobj [("row", .jnum 1), ("bbox", .jarr [.jnum 0])]])])
      (fun _ => ["t"]) = some [["", "", ""], ["", "", ""]] := rfl
example :
    pageFragments true [.jobj [("type", .jstr "heading"), ("bbox", .jarr [.jnum 0])]]
      (fun _ => []) (fun _ => "") (fun _ => []) = some ["# "] := rfl
example :
    pageFragments true [.jobj [("type", .jstr "list"), ("bbox", .jarr [.jnum 0])]]
      (fun _ => []) (fun _ => "") (fun _ => []) = some [] := rfl

/-! ## Helper lemmas -/

theorem hasSub_here (p b : List Char) : hasSub p (p ++ b) = true := by
  cases p with
  | nil => cases b <;> simp [hasSub]
  | cons c p' =>
    show (List.isPrefixOf _ _ || _) = true
    have : (c :: p').isPrefixOf ((c :: p') ++ b) = true := by
      rw [List.isPrefixOf_iff_prefix]
      exact List.prefix_append _ _
    simp [this]

theorem hasSub_cons_of (p : List Char) (c : Char) (l : List Char)
    (h : hasSub p l = true) : hasSub p (c :: l) = true := by
  show (List.isPrefixOf _ _ || _) = true
  simp [h]

theorem hasSub_append_of (p a b : List Char) (h : hasSub p b = true) :
    hasSub p (a ++ b) = true := by
  induction a with
  | nil => simpa using h
  | cons c a' ih => exact hasSub_cons_of _ _ _ ih

theorem hasSub_sandwich (p a b : List Char) : hasSub p (a ++ (p ++ b)) = true :=
  hasSub_append_of _ _ _ (hasSub_here p b)

theorem trimL_cons_not_spc {c : Char} {l : List Char} (h : isSpc c = false) :
    trimL (c :: l) = c :: l := by
  simp [trimL, List.dropWhile, h]

theorem trimR_append_singleton (l : List Char) (c : Char) (hc : isSpc c = false) :
    trimR (l ++ [c]) = l ++ [c] := by
  induction l with
  | nil => simp [trimR, hc]
  | cons d l ih =>
    show trimR (d :: (l ++ [c])) = d :: (l ++ [c])
    simp only [trimR]
    rw [ih]
    obtain ⟨e, r, hl⟩ : ∃ e r, l ++ [c] = e :: r := by
      cases l with
      | nil => exact ⟨c, [], rfl⟩
      | cons x xs => exact ⟨x, xs ++ [c], rfl⟩
    rw [hl]

theorem winAux_eq_nil {n b fuel s : Nat} (h : n ≤ s) : winAux n b fuel s = [] := by
  cases fuel with
  | zero => rfl
  | succ f => simp [winAux, Nat.not_lt.mpr h]

theorem winAux_join {n b : Nat} (hb : 1 ≤ b) :
    ∀ fuel s, n - s ≤ fuel → (winAux n b fuel s).join = List.range' s (n - s) := by
  intro fuel
  induction fuel with
  | zero =>
    intro s h
    have : n - s = 0 := Nat.le_zero.mp h
    simp [winAux, this]
  | succ f ih =>
    intro s h
    by_cases hs : s < n
    · rw [show winAux n b (f + 1) s = List.range' s (min b (n - s)) :: winAux n b f (s + b)
        from by simp [winAux, hs]]
      show List.range' s (min b (n - s)) ++ (winAux n b f (s + b)).join = _
      rcases Nat.le_total b (n - s) with hbs | hbs
      · have hmin : min b (n - s) = b := Nat.min_eq_left hbs
        have ih' := ih (s + b) (by omega)
        rw [hmin, ih']
        rw [show s + b = s + 1 * b by omega]
        calc List.range' s b 1 ++ List.range' (s + 1 * b) (n - (s + 1 * b)) 1
            = List.range' s (n - (s + 1 * b) + b) 1 := List.range'_append s b (n - (s + 1 * b)) 1
          _ = List.range' s (n - s) 1 := by congr 1; omega
      · have hmin : min b (n - s) = n - s := Nat.min_eq_right hbs
        have hnil : winAux n b f (s + b) = [] := winAux_eq_nil (by omega)
        rw [hmin, hnil]
        simp
    · rw [winAux_eq_nil (Nat.not_lt.mp hs)]
      simp [Nat.sub_eq_zero_of_le (Nat.not_lt.mp hs)]

theorem batchWindows_join {n b : Nat} (hb : 1 ≤ b) :
    (batchWindows n b).join = List.range n := by
  have := winAux_join (n := n) hb n 0 (by omega)
  simpa [batchWindows, List.range_eq_range'] using this

theorem winAux_mem_shape {n b : Nat} :
    ∀ fuel s w, w ∈ winAux n b fuel s →
      ∃ s', s' < n ∧ w = List.range' s' (min b (n - s')) := by
  intro fuel
  induction fuel with
  | zero => intro s w h; simp [winAux] at h
  | succ f ih =>
    intro s w h
    by_cases hs : s < n
    · simp only [winAux, if_pos hs, List.mem_cons] at h
      rcases h with h | h
      · exact ⟨s, hs, h⟩
      · exact ih _ _ h
    · simp [winAux, hs] at h

theorem winAux_length_full {n b : Nat} (hb : 1 ≤ b) :
    ∀ fuel s k, k + 1 < (winAux n b fuel s).length →
      ((winAux n b fuel s).getD k []).length = b := by
  intro fuel
  induction fuel with
  | zero => intro s k h; simp [winAux] at h
  | succ f ih =>
    intro s k h
    by_cases hs : s < n
    · simp only [winAux, if_pos hs] at h ⊢
      cases k with
      | zero =>
        have hrest : winAux n b f (s + b) ≠ [] := by
          intro hnil
          rw [hnil] at h
          simp at h
        have hsb : s + b < n := by
          by_contra hcon
          exact hrest (winAux_eq_nil (Nat.not_lt.mp hcon))
        have : min b (n - s) = b := Nat.min_eq_left (by omega)
        simp [this]
      | succ k' =>
        simp only [List.length_cons] at h
        have := ih (s + b) k' (by omega)
        simpa using this
    · simp [winAux, hs] at h

/-- Every element of `process_pdf_batch`'s result list: batch `j` is
`_process_batch` of batch `j`'s own conversion outcome. -/
theorem ppbAux_get (conv : Nat → List Nat → ConvOutcome) :
    ∀ (ws : List (List Nat)) (k0 j : Nat),
      (ppbAux conv ws k0).get? j = (ws.get? j).map (fun w => process_batch (conv (k0 + j) w)) := by
  intro ws
  induction ws with
  | nil => intro k0 j; simp [ppbAux]
  | cons w ws' ih =>
    intro k0 j
    cases j with
    | zero => simp [ppbAux]
    | succ j' =>
      have hidx : k0 + (j' + 1) = (k0 + 1) + j' := by omega
      rw [hidx]
      show (process_batch (conv k0 w) :: ppbAux conv ws' (k0 + 1)).get? (j' + 1) = _
      rw [List.get?_cons_succ]
      exact ih (k0 + 1) j'

theorem ppbAux_length (conv : Nat → List Nat → ConvOutcome) :
    ∀ (ws : List (List Nat)) (k0 : Nat), (ppbAux conv ws k0).length = ws.length := by
  intro ws
  induction ws with
  | nil => intro k0; rfl
  | cons w ws' ih => intro k0; simp [ppbAux, ih]

/-! ## Claim theorems -/

/-- C1.  For every source document (`n` pages), batch size `b ≥ 1` and
batch index `k` whose conversion fails (non-success status or raised
exception), `process_pdf_batch` never raises (it is total and returns one
string per batch), appends a synthesized error block in place of batch
`k`'s content, and the result of every batch `j ≠ k` is the one computed
from batch `j`'s own conversion outcome — unchanged under any modification
of batch `k`'s outcome — so batches other than `k` are unaffected. -/
theorem process_pdf_batch_fault_isolation
    (n b k : Nat) (conv conv' : Nat → List Nat → ConvOutcome) (wk : List Nat)
    (hb : 1 ≤ b)
    (hwk : (batchWindows n b).get? k = some wk)
    (hfail : isFailure (conv k wk) = true)
    (hagree : ∀ j w, j ≠ k → conv' j w = conv j w) :
    (process_pdf_batch n b conv).length = (batchWindows n b).length ∧
    (∃ e, (process_pdf_batch n b conv).get? k = some (errBlock e)) ∧
    (∀ j, j ≠ k →
      (process_pdf_batch n b conv).get? j = (process_pdf_batch n b conv').get? j) := by
  refine ⟨ppbAux_length conv _ 0, ?_, ?_⟩
  · rw [show process_pdf_batch n b conv = ppbAux conv (batchWindows n b) 0 from rfl,
      ppbAux_get conv _ 0 k, hwk]
    cases hc : conv k wk with
    | ok st md =>
      have hname : ¬ st.name = "SUCCESS" := by
        rw [hc] at hfail
        simpa [isFailure] using hfail
      exact ⟨statusFailText st, by simp [process_batch, hc, hname]⟩
    | exc m => exact ⟨excFailText m, by simp [process_batch, hc]⟩
  · intro j hj
    rw [show process_pdf_batch n b conv = ppbAux conv (batchWindows n b) 0 from rfl,
      show process_pdf_batch n b conv' = ppbAux conv' (batchWindows n b) 0 from rfl,
      ppbAux_get conv _ 0 j, ppbAux_get conv' _ 0 j]
    cases hg : (batchWindows n b).get? j with
    | none => rfl
    | some w =>
      simp only [Nat.zero_add, Option.map_some']
      rw [hagree j w hj]

/-- Witness for C1: three pages, batch size 1, batch 1 raises. -/
theorem process_pdf_batch_fault_isolation_witness :
    (process_pdf_batch 3 1
        (fun k _ => if k = 1 then .exc "boom" else .ok ⟨"SUCCESS", "ok"⟩ "fine")).length
      = (batchWindows 3 1).length ∧
    (∃ e, (process_pdf_batch 3 1
        (fun k _ => if k = 1 then .exc "boom" else .ok ⟨"SUCCESS", "ok"⟩ "fine")).get? 1
      = some (errBlock e)) ∧
    (∀ j, j ≠ 1 →
      (process_pdf_batch 3 1
        (fun k _ => if k = 1 then .exc "boom" else .ok ⟨"SUCCESS", "ok"⟩ "fine")).get? j
      = (process_pdf_batch 3 1 (fun _ _ => .ok ⟨"SUCCESS", "ok"⟩ "fine")).get? j) :=
  process_pdf_batch_fault_isolation 3 1 1
    (fun k _ => if k = 1 then .exc "boom" else .ok ⟨"SUCCESS", "ok"⟩ "fine")
    (fun _ _ => .ok ⟨"SUCCESS", "ok"⟩ "fine") [1]
    (by decide) (by decide) (by decide)
    (by intro j w hj; simp [hj])

/-- C2.  For every page count `n` and batch size `b ≥ 1`, the page-index
windows of `process_pdf_batch` partition `[0, n)` exactly into consecutive
ascending runs: their concatenation in batch order is `[0, 1, …, n-1]`
(so every page index appears in exactly one batch, none skipped or
duplicated), every window is nonempty of length at most `b`, and every
window except possibly the last has length exactly `b`. -/
theorem batch_windows_partition (n b : Nat) (hb : 1 ≤ b) :
    (batchWindows n b).join = List.range n ∧
    (∀ w ∈ batchWindows n b, 0 < w.length ∧ w.length ≤ b) ∧
    (∀ k, k + 1 < (batchWindows n b).length →
      ((batchWindows n b).getD k []).length = b) := by
  refine ⟨batchWindows_join hb, ?_, ?_⟩
  · intro w hw
    obtain ⟨s', hs', rfl⟩ := winAux_mem_shape n 0 w hw
    constructor
    · simp only [List.length_range']
      omega
    · simp only [List.length_range']
      omega
  · intro k hk
    exact winAux_length_full hb n 0 k hk

/-- Witness for C2: five pages, batch size 2 (windows `[0,1] [2,3] [4]`). -/
theorem batch_windows_partition_witness :
    (batchWindows 5 2).join = List.range 5 ∧
    (∀ w ∈ batchWindows 5 2, 0 < w.length ∧ w.length ≤ 2) ∧
    (∀ k, k + 1 < (batchWindows 5 2).length →
      ((batchWindows 5 2).getD k []).length = 2) :=
  batch_windows_partition 5 2 (by decide)

/-- C5.  For every VLM response text, if `json.loads` of the fence-cleaned
text does not yield an array (parse failure or a non-array value),
`_get_layout_from_vlm` returns the empty region list — and it is a total
function, so no exception escapes it. -/
theorem layout_parse_failure_degrades (resp : String)
    (h : ∀ l, jsonLoads (String.mk (fenceClean resp.toList)) ≠ some (.jarr l)) :
    parseLayout resp = [] ∧
    ∀ opts vlm, vlm (vlmOptionsUsed opts) = resp →
      (get_layout_from_vlm opts vlm true).1 = [] := by
  have hp : parseLayout resp = [] := by
    unfold parseLayout
    cases hj : jsonLoads (String.mk (fenceClean resp.toList)) with
    | none => rfl
    | some v =>
      cases v with
      | jarr l => exact absurd hj (h l)
      | jnull => rfl
      | jbool b => rfl
      | jnum n => rfl
      | jstr s => rfl
      | jobj f => rfl
  refine ⟨hp, ?_⟩
  intro opts vlm hv
  simp [get_layout_from_vlm, hv, hp]

/-- Witness for C5: the response `"not json"` yields the empty region list. -/
theorem layout_parse_failure_degrades_witness :
    parseLayout "not json" = [] ∧
    ∀ opts vlm, vlm (vlmOptionsUsed opts) = "not json" →
      (get_layout_from_vlm opts vlm true).1 = [] :=
  layout_parse_failure_degrades "not json"
    (by
      intro l
      rw [show jsonLoads (String.mk (fenceClean "not json".toList)) = none from rfl]
      simp)

/-- C6 counterexample.  A one-page document whose single batch fails with
status `FAILURE` produces exactly the synthesized error block, and that
block does not contain the batch's page range (`1-1`, for pages 1–1): it
contains no digit `1` at all.  The claim that every synthesized error
block contains the batch's page range is therefore false. -/
theorem error_block_lacks_page_range :
    (process_pdf_batch 1 1 (fun _ _ => .ok ⟨"FAILURE", "v"⟩ "md")).get? 0
      = some (errBlock (statusFailText ⟨"FAILURE", "v"⟩)) ∧
    hasSub "1-1".toList (errBlock (statusFailText ⟨"FAILURE", "v"⟩)).toList = false ∧
    hasSub "1".toList (errBlock (statusFailText ⟨"FAILURE", "v"⟩)).toList = false := by
  refine ⟨rfl, by decide, by decide⟩

/-- C6 amended.  The synthesized error block of a failed batch contains the
status name and status value (resp. the exception message), but not the
page range: the block is exactly
`"\n\n---\n\n### " ++ failure text ++ "\n\n---\n\n"`, whose only
batch-specific content is the status/message (the page range appears only
on the console). -/
theorem error_block_contains_status (st : ConvStatus) (md m : String)
    (hname : st.name ≠ "SUCCESS") :
    process_batch (.ok st md) = errBlock (statusFailText st) ∧
    hasSub st.name.toList (process_batch (.ok st md)).toList = true ∧
    hasSub st.value.toList (process_batch (.ok st md)).toList = true ∧
    process_batch (.exc m) = errBlock (excFailText m) ∧
    hasSub m.toList (process_batch (.exc m)).toList = true := by
  have hok : process_batch (.ok st md) = errBlock (statusFailText st) := by
    simp [process_batch, hname]
  refine ⟨hok, ?_, ?_, rfl, ?_⟩
  · rw [hok]
    show hasSub st.name.toList
      ("\n\n---\n\n### " ++ ("  👎 배치 실패: " ++ st.name ++ " - " ++ st.value) ++ "\n\n---\n\n").toList = true
    have : ("\n\n---\n\n### " ++ ("  👎 배치 실패: " ++ st.name ++ " - " ++ st.value) ++ "\n\n---\n\n").toList
        = ("\n\n---\n\n### ".toList ++ "  👎 배치 실패: ".toList) ++
            (st.name.toList ++ (" - ".toList ++ st.value.toList ++ "\n\n---\n\n".toList)) := by
      simp [String.toList, String.data_append]
    rw [this]
    exact hasSub_sandwich _ _ _
  · rw [hok]
    show hasSub st.value.toList
      ("\n\n---\n\n### " ++ ("  👎 배치 실패: " ++ st.name ++ " - " ++ st.value) ++ "\n\n---\n\n").toList = true
    have : ("\n\n---\n\n### " ++ ("  👎 배치 실패: " ++ st.name ++ " - " ++ st.value) ++ "\n\n---\n\n").toList
        = ("\n\n---\n\n### ".toList ++ "  👎 배치 실패: ".toList ++ st.name.toList ++ " - ".toList) ++
            (st.value.toList ++ "\n\n---\n\n".toList) := by
      simp [String.toList, String.data_append]
    rw [this]
    exact hasSub_sandwich _ _ _
  · show hasSub m.toList
      ("\n\n---\n\n### " ++ ("  ❌ 배치 처리 중 예외 발생: " ++ m) ++ "\n\n---\n\n").toList = true
    have : ("\n\n---\n\n### " ++ ("  ❌ 배치 처리 중 예외 발생: " ++ m) ++ "\n\n---\n\n").toList
        = ("\n\n---\n\n### ".toList ++ "  ❌ 배치 처리 중 예외 발생: ".toList) ++
            (m.toList ++ "\n\n---\n\n".toList) := by
      simp [String.toList, String.data_append]
    rw [this]
    exact hasSub_sandwich _ _ _

/-- Witness for the amended C6. -/
theorem error_block_contains_status_witness :
    process_batch (.ok ⟨"FAILURE", "v"⟩ "md") = errBlock (statusFailText ⟨"FAILURE", "v"⟩) ∧
    hasSub "FAILURE".toList (process_batch (.ok ⟨"FAILURE", "v"⟩ "md")).toList = true ∧
    hasSub "v".toList (process_batch (.ok ⟨"FAILURE", "v"⟩ "md")).toList = true ∧
    process_batch (.exc "boom") = errBlock (excFailText "boom") ∧
    hasSub "boom".toList (process_batch (.exc "boom")).toList = true :=
  error_block_contains_status ⟨"FAILURE", "v"⟩ "md" "boom" (by decide)

/-- C7 (code bug).  The `list` branch of `_format_as_markdown` splits and
joins on the *literal two-character sequence* `\n` (the source says
`data.split('\\n')`), not on newline characters: the content
`"a\nb\n\n"` (real newlines) therefore formats to the single bullet
`"- a\nb\n\n"` and not to `"- a\n- b"` as the claim (one bullet per
non-blank line, blank lines dropped) requires. -/
theorem list_format_splits_on_literal_backslash_n :
    format_as_markdown (.jobj [("type", .jstr "list"), ("bbox", .jarr [])])
      (.str "a\nb\n\n") = some "- a\nb\n\n" ∧
    ("- a\nb\n\n" : String) ≠ "- a\n- b" ∧
    format_as_markdown (.jobj [("type", .jstr "list"), ("bbox", .jarr [])])
      (.str "a\\nb\\n\\n") = some "- a\\n- b" := by
  exact ⟨rfl, by decide, rfl⟩

/-- C9 counterexample.  A JSON array wrapped in a plain code fence (not
`\`\`\`json`) is *not* unwrapped: the fence survives, parsing fails, and
the region list is empty rather than the wrapped array. -/
theorem plain_fence_not_stripped :
    jsonLoads "[1]" = some (.jarr [.jnum 1]) ∧
    parseLayout "```\n[1]\n```" = [] ∧
    parseLayout "[1]" = [.jnum 1] := ⟨rfl, rfl, rfl⟩

/-- C9 amended.  Only a response whose stripped text starts with exactly
`\`\`\`json` is unwrapped, by dropping its first 7 and last 4 characters;
a JSON array wrapped as `\`\`\`json\n…\n\`\`\`` therefore parses to that
array, while responses opening with any other fence are passed to the
parser unchanged. -/
theorem json_fence_stripping (body : List Char) (l : List JVal)
    (h : jsonLoads (String.mk ('\n' :: body)) = some (.jarr l)) :
    parseLayout (String.mk ("```json\n".toList ++ body ++ "\n```".toList)) = l ∧
    ∀ resp : List Char, "```json".toList.isPrefixOf (trim resp) = false →
      fenceClean resp = resp := by
  constructor
  · have htrim : trim ("```json\n".toList ++ body ++ "\n```".toList)
        = "```json\n".toList ++ body ++ "\n```".toList := by
      have hhead : "```json\n".toList ++ body ++ "\n```".toList
          = tick :: ("``json\n".toList ++ body ++ "\n```".toList) := by
        rw [show "```json\n".toList = tick :: "``json\n".toList from by decide]
        simp
      have htail : "``json\n".toList ++ body ++ "\n```".toList
          = ("``json\n".toList ++ body ++ "\n``".toList) ++ [tick] := by
        rw [show "\n```".toList = "\n``".toList ++ [tick] from by decide]
        simp
      unfold trim
      rw [hhead, trimL_cons_not_spc (by decide), htail]
      rw [show tick :: (("``json\n".toList ++ body ++ "\n``".toList) ++ [tick])
          = (tick :: ("``json\n".toList ++ body ++ "\n``".toList)) ++ [tick] from rfl]
      rw [trimR_append_singleton _ _ (by decide)]
    have hclean : fenceClean ("```json\n".toList ++ body ++ "\n```".toList) = '\n' :: body := by
      unfold fenceClean
      rw [htrim]
      have hpre : "```json".toList.isPrefixOf
          ("```json\n".toList ++ body ++ "\n```".toList) = true := by
        rw [List.isPrefixOf_iff_prefix,
          show "```json\n".toList = "```json".toList ++ ['\n'] from by decide]
        rw [List.append_assoc, List.append_assoc]
        exact List.prefix_append _ _
      rw [if_pos hpre]
      have hlen : ("```json\n".toList ++ body ++ "\n```".toList).length - 4
          = ("```json\n".toList ++ body).length := by
        simp
      rw [hlen]
      rw [List.take_left' rfl]
      rw [show "```json\n".toList ++ body = "```json".toList ++ ('\n' :: body) from by
        rw [show "```json\n".toList = "```json".toList ++ ['\n'] from by decide]; simp]
      rw [List.drop_left' (by decide)]
    unfold parseLayout
    rw [show (String.mk ("```json\n".toList ++ body ++ "\n```".toList)).toList
        = "```json\n".toList ++ body ++ "\n```".toList from rfl]
    rw [hclean]
    rw [show String.mk ('\n' :: body) = String.mk ('\n' :: body) from rfl] at h
    rw [h]
  · intro resp hresp
    unfold fenceClean
    rw [hresp]
    simp

/-- Witness for the amended C9: the array `[1]` wrapped as
`\`\`\`json\n[1]\n\`\`\`` parses to its single element. -/
theorem json_fence_stripping_witness :
    parseLayout (String.mk ("```json\n".toList ++ "[1]".toList ++ "\n```".toList))
      = [.jnum 1] ∧
    ∀ resp : List Char, "```json".toList.isPrefixOf (trim resp) = false →
      fenceClean resp = resp :=
  json_fence_stripping "[1]".toList [.jnum 1] rfl

/-- C10.  A layout-planner call substitutes the layout instruction only
into a copy of the shared VLM options: the copy differs from the shared
options in the prompt alone (every other field is preserved), and after
the call the pipeline's shared `self.options.vlm_options` — prompt
included — is exactly its value before the call. -/
theorem layout_call_preserves_shared_options
    (opts : ApiVlmOptions) (vlm : ApiVlmOptions → String) (hasImage : Bool) :
    (get_layout_from_vlm opts vlm hasImage).2 = opts ∧
    (get_layout_from_vlm opts vlm hasImage).2.prompt = opts.prompt ∧
    (vlmOptionsUsed opts).prompt = layoutPrompt ∧
    (vlmOptionsUsed opts).url = opts.url ∧
    (vlmOptionsUsed opts).headers = opts.headers ∧
    (vlmOptionsUsed opts).params = opts.params ∧
    (vlmOptionsUsed opts).response_format = opts.response_format ∧
    (vlmOptionsUsed opts).timeout = opts.timeout ∧
    (vlmOptionsUsed opts).concurrency = opts.concurrency := by
  unfold get_layout_from_vlm vlmOptionsUsed
  split <;> simp

theorem foldl_max_le_self (l : List Int) : ∀ v : Int, v ≤ l.foldl max v := by
  induction l with
  | nil => intro v; exact le_refl v
  | cons x xs ih =>
    intro v
    calc v ≤ max v x := le_max_left v x
      _ ≤ (x :: xs).foldl max v := by simpa using ih (max v x)

theorem foldl_max_mem_le (l : List Int) : ∀ v : Int, ∀ x ∈ l, x ≤ l.foldl max v := by
  induction l with
  | nil => intro v x hx; simp at hx
  | cons y ys ih =>
    intro v x hx
    rcases List.mem_cons.mp hx with rfl | hx'
    · calc x ≤ max v x := le_max_right v x
        _ ≤ ys.foldl max (max v x) := foldl_max_le_self ys (max v x)
        _ = (x :: ys).foldl max v := by simp
    · calc x ≤ ys.foldl max (max v y) := ih (max v y) x hx'
        _ = (y :: ys).foldl max v := by simp

/-- For a well-formed cell, `cell.get(key, 0)` contributes a nonnegative
integer to `max`: the field's value if present, 0 otherwise. -/
theorem cellNumD_of_wf {cell : JVal} (hw : wfCell cell = true)
    (key : String) (hkey : key = "row" ∨ key = "col") :
    ∃ v, cellNumD cell key = some v ∧ 0 ≤ v ∧
      (∀ n : Int, jget cell key = some (.jnum n) → v = n) ∧
      (jget cell key = none → v = 0) := by
  have hnat : natField cell key = true := by
    unfold wfCell at hw
    rcases hkey with rfl | rfl
    · exact (Bool.and_eq_true_iff.mp ((Bool.and_eq_true_iff.mp hw).1)).2
    · exact (Bool.and_eq_true_iff.mp hw).2
  cases cell with
  | jobj f =>
    unfold natField at hnat
    unfold cellNumD
    cases hg : jget (.jobj f) key with
    | none =>
      refine ⟨0, rfl, le_refl 0, ?_, fun _ => rfl⟩
      intro n hn
      exact absurd hn (by simp)
    | some v =>
      rw [hg] at hnat
      cases v with
      | jnum n =>
        refine ⟨n, rfl, by simpa using hnat, ?_, by intro hc; exact absurd hc (by simp)⟩
        intro n' hn'
        exact JVal.jnum.inj (Option.some.inj hn')
      | jnull => simp at hnat
      | jbool b => simp at hnat
      | jstr s => simp at hnat
      | jarr l => simp at hnat
      | jobj f' => simp at hnat
  | jnull => unfold wfCell at hw; simp at hw
  | jbool b => unfold wfCell at hw; simp at hw
  | jnum n => unfold wfCell at hw; simp at hw
  | jstr s => unfold wfCell at hw; simp at hw
  | jarr l => unfold wfCell at hw; simp at hw

/-- `max(cell.get(key, 0) for cell in cells)` on a nonempty list of
well-formed cells: defined, nonnegative, and an upper bound for every
declared coordinate. -/
theorem cellsMax_of_wf {cells : List JVal} (key : String)
    (hkey : key = "row" ∨ key = "col")
    (hwf : ∀ c ∈ cells, wfCell c = true) (hne : cells ≠ []) :
    ∃ m, cellsMax cells key = some m ∧ 0 ≤ m ∧
      ∀ cell ∈ cells, ∀ n : Int, jget cell key = some (.jnum n) → n ≤ m := by
  obtain ⟨c0, rest, rfl⟩ : ∃ c0 rest, cells = c0 :: rest := by
    cases cells with
    | nil => exact absurd rfl hne
    | cons a b => exact ⟨a, b, rfl⟩
  have hvals : ∃ vals, rest.mapM (fun c => cellNumD c key) = some vals ∧
      ∀ cell ∈ rest, ∃ w, cellNumD cell key = some w ∧ w ∈ vals := by
    clear hne
    have hwf' : ∀ c ∈ rest, wfCell c = true := fun c hc => hwf c (List.mem_cons_of_mem _ hc)
    clear hwf
    induction rest with
    | nil => exact ⟨[], rfl, by simp⟩
    | cons d ds ih =>
      obtain ⟨v, hv, _, _, _⟩ := cellNumD_of_wf (hwf' d (List.mem_cons_self d ds)) key hkey
      obtain ⟨vals, hvals, hmem⟩ := ih (fun c hc => hwf' c (List.mem_cons_of_mem _ hc))
      refine ⟨v :: vals, ?_, ?_⟩
      · rw [List.mapM_cons, hv, hvals]; rfl
      · intro cell hcell
        rcases List.mem_cons.mp hcell with rfl | hc'
        · exact ⟨v, hv, List.mem_cons_self _ _⟩
        · obtain ⟨w, hw1, hw2⟩ := hmem cell hc'
          exact ⟨w, hw1, List.mem_cons_of_mem _ hw2⟩
  obtain ⟨v0, hv0, hv0nn, hv0num, _⟩ :=
    cellNumD_of_wf (hwf c0 (List.mem_cons_self c0 rest)) key hkey
  obtain ⟨vals, hvals, hmem⟩ := hvals
  refine ⟨vals.foldl max v0, ?_, ?_, ?_⟩
  · unfold cellsMax
    rw [List.mapM_cons, hv0, hvals]
    rfl
  · exact le_trans hv0nn (foldl_max_le_self vals v0)
  · intro cell hcell n hn
    rcases List.mem_cons.mp hcell with rfl | hc'
    · rw [← hv0num n hn]
      exact foldl_max_le_self vals v0
    · obtain ⟨w, hw1, hw2⟩ := hmem cell hc'
      obtain ⟨w', hw1', _, hwnum, _⟩ := cellNumD_of_wf (hwf cell (List.mem_cons_of_mem _ hc')) key hkey
      rw [hw1] at hw1'
      cases hw1'
      rw [← hwnum n hn]
      exact foldl_max_mem_le vals v0 w hw2

/-- A present coordinate of a well-formed cell is a nonnegative integer. -/
theorem wf_field_shape {cell : JVal} (hw : wfCell cell = true)
    {key : String} (hkey : key = "row" ∨ key = "col")
    {v : JVal} (hv : jget cell key = some v) :
    ∃ n : Int, v = .jnum n ∧ 0 ≤ n := by
  have hnat : natField cell key = true := by
    unfold wfCell at hw
    rcases hkey with rfl | rfl
    · exact (Bool.and_eq_true_iff.mp ((Bool.and_eq_true_iff.mp hw).1)).2
    · exact (Bool.and_eq_true_iff.mp hw).2
  unfold natField at hnat
  rw [hv] at hnat
  cases v with
  | jnum n => exact ⟨n, rfl, by simpa using hnat⟩
  | jnull => simp at hnat
  | jbool b => simp at hnat
  | jstr s => simp at hnat
  | jarr l => simp at hnat
  | jobj f => simp at hnat

/-- Reduction of the fill loop when the head cell is skipped (a missing
`row`/`col`/`bbox`, or a JSON-null among them). -/
theorem fillCells_skip (cellOcr : JVal → List String) (grid : List (List String))
    (cell : JVal) (rest : List JVal)
    (h : jget cell "row" = none ∨ jget cell "col" = none ∨ jget cell "bbox" = none ∨
      (∃ rv cv bv, jget cell "row" = some rv ∧ jget cell "col" = some cv ∧
        jget cell "bbox" = some bv ∧ (jvalIsNull rv || jvalIsNull cv || jvalIsNull bv) = true)) :
    fillCells cellOcr grid (cell :: rest) = fillCells cellOcr grid rest := by
  rcases h with h1 | h2 | h3 | ⟨rv, cv, bv, h1, h2, h3, hnull⟩
  · conv_lhs => unfold fillCells
    rw [h1]
  · conv_lhs => unfold fillCells
    rw [h2]
    cases jget cell "row" <;> rfl
  · conv_lhs => unfold fillCells
    rw [h3]
    cases jget cell "row" <;> cases jget cell "col" <;> rfl
  · conv_lhs => unfold fillCells
    rw [h1, h2, h3]
    simp [hnull]

/-- Reduction of the fill loop when the head cell writes: integral in-range
coordinates, all three fields present and non-null. -/
theorem fillCells_write (cellOcr : JVal → List String) (grid : List (List String))
    (cell : JVal) (rest : List JVal) {n m : Int} {bv : JVal}
    (h1 : jget cell "row" = some (.jnum n)) (h2 : jget cell "col" = some (.jnum m))
    (h3 : jget cell "bbox" = some bv) (hbv : jvalIsNull bv = false)
    {rowList : List String} (hpg : pyGet grid n = some rowList)
    {rowList' : List String}
    (hps1 : pySet rowList m (joinSep " " (cellOcr cell)) = some rowList')
    {grid2 : List (List String)} (hps2 : pySet grid n rowList' = some grid2) :
    fillCells cellOcr grid (cell :: rest) = fillCells cellOcr grid2 rest := by
  conv_lhs => unfold fillCells
  rw [h1, h2, h3]
  have hjn : jvalIsNull (JVal.jnum n) = false := rfl
  have hjm : jvalIsNull (JVal.jnum m) = false := rfl
  simp only [hjn, hjm, hbv, Bool.false_or, Bool.or_false, Bool.or_self, Bool.false_eq_true,
    if_false, jvalAsInt, hpg, hps1, hps2]

/-- The fill loop of `_process_table_region` on a rectangular `R × C` grid,
with every declared coordinate in bounds: it cannot raise, it preserves the
grid's shape, and it leaves every position that no processed cell writes
unchanged. -/
theorem fillCells_invariant (cellOcr : JVal → List String) (R C : Nat) :
    ∀ (cells : List JVal) (grid : List (List String)),
      (∀ c ∈ cells, wfCell c = true) →
      (∀ c ∈ cells, ∀ n : Int, jget c "row" = some (.jnum n) → n < (R : Int)) →
      (∀ c ∈ cells, ∀ n : Int, jget c "col" = some (.jnum n) → n < (C : Int)) →
      grid.length = R →
      (∀ row ∈ grid, row.length = C) →
      ∃ g', fillCells cellOcr grid cells = some g' ∧
        g'.length = R ∧ (∀ row ∈ g', row.length = C) ∧
        (∀ i j : Nat, (∀ c ∈ cells, fillsAt c (i : Int) (j : Int) = false) →
          getEntry g' i j = getEntry grid i j) := by
  intro cells
  induction cells with
  | nil =>
    intro grid _ _ _ hlen hrows
    exact ⟨grid, rfl, hlen, hrows, fun i j _ => rfl⟩
  | cons cell rest ih =>
    intro grid hwf hrow hcol hlen hrows
    have hwfc : wfCell cell = true := hwf cell (List.mem_cons_self _ _)
    have hwf' := fun c hc => hwf c (List.mem_cons_of_mem cell hc)
    have hrow' := fun c hc => hrow c (List.mem_cons_of_mem cell hc)
    have hcol' := fun c hc => hcol c (List.mem_cons_of_mem cell hc)
    cases h1 : jget cell "row" with
    | none =>
      obtain ⟨g', hg', hl, hr, he⟩ := ih grid hwf' hrow' hcol' hlen hrows
      rw [fillCells_skip cellOcr grid cell rest (Or.inl h1)]
      exact ⟨g', hg', hl, hr, fun i j hnf =>
        he i j (fun c hc => hnf c (List.mem_cons_of_mem cell hc))⟩
    | some rv =>
      cases h2 : jget cell "col" with
      | none =>
        obtain ⟨g', hg', hl, hr, he⟩ := ih grid hwf' hrow' hcol' hlen hrows
        rw [fillCells_skip cellOcr grid cell rest (Or.inr (Or.inl h2))]
        exact ⟨g', hg', hl, hr, fun i j hnf =>
          he i j (fun c hc => hnf c (List.mem_cons_of_mem cell hc))⟩
      | some cv =>
        cases h3 : jget cell "bbox" with
        | none =>
          obtain ⟨g', hg', hl, hr, he⟩ := ih grid hwf' hrow' hcol' hlen hrows
          rw [fillCells_skip cellOcr grid cell rest (Or.inr (Or.inr (Or.inl h3)))]
          exact ⟨g', hg', hl, hr, fun i j hnf =>
            he i j (fun c hc => hnf c (List.mem_cons_of_mem cell hc))⟩
        | some bv =>
          obtain ⟨n, rfl, hn0⟩ := wf_field_shape hwfc (Or.inl rfl) h1
          obtain ⟨m, rfl, hm0⟩ := wf_field_shape hwfc (Or.inr rfl) h2
          by_cases hbv : jvalIsNull bv = true
          · obtain ⟨g', hg', hl, hr, he⟩ := ih grid hwf' hrow' hcol' hlen hrows
            rw [fillCells_skip cellOcr grid cell rest
              (Or.inr (Or.inr (Or.inr ⟨_, _, bv, h1, h2, h3, by rw [hbv]; simp⟩)))]
            exact ⟨g', hg', hl, hr, fun i j hnf =>
              he i j (fun c hc => hnf c (List.mem_cons_of_mem cell hc))⟩
          · rw [Bool.not_eq_true] at hbv
            have hnR : n < (R : Int) := hrow cell (List.mem_cons_self _ _) n h1
            have hmC : m < (C : Int) := hcol cell (List.mem_cons_self _ _) m h2
            have hltn : n.toNat < grid.length := by rw [hlen]; omega
            obtain ⟨rowList, hrowget⟩ : ∃ rl, grid.get? n.toNat = some rl := by
              cases hg : grid.get? n.toNat with
              | none => exact absurd (List.get?_eq_none.mp hg) (by omega)
              | some rl => exact ⟨rl, rfl⟩
            have hrlC : rowList.length = C := hrows rowList (List.get?_mem hrowget)
            have hidxn : pyIdx grid.length n = some n.toNat := by
              unfold pyIdx
              rw [if_pos hn0, if_pos (by rw [hlen]; exact hnR)]
            have hpg : pyGet grid n = some rowList := by
              unfold pyGet
              rw [hidxn]
              simp only [hrowget]
            have hidxm : pyIdx rowList.length m = some m.toNat := by
              unfold pyIdx
              rw [if_pos hm0, if_pos (by rw [hrlC]; exact hmC)]
            have hps1 : pySet rowList m (joinSep " " (cellOcr cell))
                = some (rowList.set m.toNat (joinSep " " (cellOcr cell))) := by
              unfold pySet
              rw [hidxm]
              try rfl
            have hps2 : pySet grid n (rowList.set m.toNat (joinSep " " (cellOcr cell)))
                = some (grid.set n.toNat (rowList.set m.toNat (joinSep " " (cellOcr cell)))) := by
              unfold pySet
              rw [hidxn]
              try rfl
            rw [fillCells_write cellOcr grid cell rest h1 h2 h3 hbv hpg hps1 hps2]
            have hlen2 : (grid.set n.toNat (rowList.set m.toNat (joinSep " " (cellOcr cell)))).length = R := by
              rw [List.length_set]; exact hlen
            have hrows2 : ∀ row ∈ grid.set n.toNat (rowList.set m.toNat (joinSep " " (cellOcr cell))),
                row.length = C := by
              intro row hrmem
              rcases List.mem_or_eq_of_mem_set hrmem with hmem | rfl
              · exact hrows row hmem
              · rw [List.length_set]; exact hrlC
            obtain ⟨g', hg', hl, hr, he⟩ := ih _ hwf' hrow' hcol' hlen2 hrows2
            refine ⟨g', hg', hl, hr, ?_⟩
            intro i j hnf
            rw [he i j (fun c hc => hnf c (List.mem_cons_of_mem cell hc))]
            have hfc : fillsAt cell (i : Int) (j : Int) = false :=
              hnf cell (List.mem_cons_self _ _)
            unfold fillsAt at hfc
            rw [h1, h2, h3] at hfc
            have hjn2 : jvalIsNull (JVal.jnum n) = false := rfl
            have hjm2 : jvalIsNull (JVal.jnum m) = false := rfl
            simp only [hjn2, hjm2, hbv, Bool.false_or, Bool.or_false, Bool.or_self,
              Bool.not_false, Bool.true_and, jvalAsInt, Bool.and_eq_false_iff,
              Option.some.injEq, decide_eq_false_iff_not] at hfc
            have hne2 : ¬(n = (i : Int) ∧ m = (j : Int)) := by
              rcases hfc with hfc | hfc
              · intro hb
                exact hfc hb.1
              · intro hb
                exact hfc hb.2
            unfold getEntry
            by_cases hni : n = (i : Int)
            · have hmj : ¬ m = (j : Int) := fun hc => hne2 ⟨hni, hc⟩
              have hieq : n.toNat = i := by omega
              rw [List.get?_eq_getElem?, List.get?_eq_getElem?, ← hieq,
                List.getElem?_set_self (by omega), ← List.get?_eq_getElem?, hrowget]
              show (rowList.set m.toNat (joinSep " " (cellOcr cell))).get? j = rowList.get? j
              rw [List.get?_eq_getElem?, List.get?_eq_getElem?]
              exact List.getElem?_set_ne (by omega)
            · have hieq : n.toNat ≠ i := by omega
              rw [List.get?_eq_getElem?, List.getElem?_set_ne hieq, ← List.get?_eq_getElem?]

/-- C4 counterexample.  A table region whose cells collection is empty —
or absent altogether — makes `_process_table_region` raise (`max()` over an
empty sequence is a `ValueError`), rather than returning a grid with no
error as the claim states; `none` models the raised exception. -/
theorem table_grid_empty_cells_raises :
    process_table_region true
      (.jobj [("type", .jstr "table"), ("bbox", .jarr []), ("cells", .jarr [])])
      (fun _ => []) = none ∧
    process_table_region true
      (.jobj [("type", .jstr "table"), ("bbox", .jarr [])])
      (fun _ => []) = none := ⟨rfl, rfl⟩

/-- C4 amended.  For a table region with a *nonempty* collection of
well-formed declared cells (cells are objects; declared `row`/`col` values
are nonnegative integers), the resolver returns a grid of exactly
`max(row)+1` rows and `max(col)+1` columns (maxima over `cell.get(key, 0)`,
so cells with a missing coordinate contribute 0), the grid is rectangular,
every position no cell writes — in particular positions only claimed by
cells with a missing or null `row`/`col`/`bbox`, which are skipped — holds
the empty string, and no exception is raised.  With an empty or absent
cells collection the resolver instead raises `ValueError`
(`table_grid_empty_cells_raises`). -/
theorem table_grid_shape (region : JVal) (cells : List JVal)
    (cellOcr : JVal → List String)
    (hc : jget region "cells" = some (.jarr cells))
    (hne : cells ≠ [])
    (hwf : ∀ c ∈ cells, wfCell c = true) :
    ∃ g mr mc, cellsMax cells "row" = some mr ∧ cellsMax cells "col" = some mc ∧
      process_table_region true region cellOcr = some g ∧
      g.length = (mr + 1).toNat ∧
      (∀ row ∈ g, row.length = (mc + 1).toNat) ∧
      (∀ i j : Nat, i < (mr + 1).toNat → j < (mc + 1).toNat →
        (∀ c ∈ cells, fillsAt c (i : Int) (j : Int) = false) →
        getEntry g i j = some "") := by
  obtain ⟨mr, hmr, hmr0, hmrb⟩ := cellsMax_of_wf "row" (Or.inl rfl) hwf hne
  obtain ⟨mc, hmc, hmc0, hmcb⟩ := cellsMax_of_wf "col" (Or.inr rfl) hwf hne
  have hinit_len : (List.replicate (mr + 1).toNat (List.replicate (mc + 1).toNat "")).length
      = (mr + 1).toNat := List.length_replicate _ _
  have hinit_rows : ∀ row ∈ List.replicate (mr + 1).toNat (List.replicate (mc + 1).toNat ""),
      row.length = (mc + 1).toNat := by
    intro row hrow
    rw [List.eq_of_mem_replicate hrow]
    exact List.length_replicate _ _
  obtain ⟨g, hg, hglen, hgrows, hge⟩ :=
    fillCells_invariant cellOcr (mr + 1).toNat (mc + 1).toNat cells
      (List.replicate (mr + 1).toNat (List.replicate (mc + 1).toNat ""))
      hwf
      (by
        intro c hcm n hn
        have := hmrb c hcm n hn
        omega)
      (by
        intro c hcm n hn
        have := hmcb c hcm n hn
        omega)
      hinit_len hinit_rows
  refine ⟨g, mr, mc, hmr, hmc, ?_, hglen, hgrows, ?_⟩
  · unfold process_table_region
    rw [hc]
    simp only [hmr, hmc, if_true]
    exact hg
  · intro i j hi hj hnf
    rw [hge i j hnf]
    unfold getEntry
    rw [List.get?_eq_getElem?, List.getElem?_replicate, if_pos hi]
    show (List.replicate (mc + 1).toNat "").get? j = some ""
    rw [List.get?_eq_getElem?, List.getElem?_replicate, if_pos hj]

/-- Witness for the amended C4: two declared cells, one of them without a
`row` (it is skipped but still contributes the default 0 to the maxima). -/
theorem table_grid_shape_witness :
    ∃ g mr mc,
      cellsMax [.jobj [("row", .jnum 1), ("col", .jnum 2), ("bbox", .jarr [])],
                .jobj [("col", .jnum 0), ("bbox", .jarr [])]] "row" = some mr ∧
      cellsMax [.jobj [("row", .jnum 1), ("col", .jnum 2), ("bbox", .jarr [])],
                .jobj [("col", .jnum 0), ("bbox", .jarr [])]] "col" = some mc ∧
      process_table_region true
        (.jobj [("cells", .jarr
          [.jobj [("row", .jnum 1), ("col", .jnum 2), ("bbox", .jarr [])],
           .jobj [("col", .jnum 0), ("bbox", .jarr [])]])])
        (fun _ => ["x"]) = some g ∧
      g.length = (mr + 1).toNat ∧
      (∀ row ∈ g, row.length = (mc + 1).toNat) ∧
      (∀ i j : Nat, i < (mr + 1).toNat → j < (mc + 1).toNat →
        (∀ c ∈ [.jobj [("row", .jnum 1), ("col", .jnum 2), ("bbox", .jarr [])],
                .jobj [("col", .jnum 0), ("bbox", .jarr [])]],
          fillsAt c (i : Int) (j : Int) = false) →
        getEntry g i j = some "") :=
  table_grid_shape
    (.jobj [("cells", .jarr
      [.jobj [("row", .jnum 1), ("col", .jnum 2), ("bbox", .jarr [])],
       .jobj [("col", .jnum 0), ("bbox", .jarr [])]])])
    [.jobj [("row", .jnum 1), ("col", .jnum 2), ("bbox", .jarr [])],
     .jobj [("col", .jnum 0), ("bbox", .jarr [])]]
    (fun _ => ["x"]) rfl (by simp)
    (by
      intro c hc
      rcases List.mem_cons.mp hc with rfl | hc'
      · rfl
      · rcases List.mem_cons.mp hc' with rfl | hc''
        · rfl
        · simp at hc'')

/-- Reduction of the `_process_pages` region loop on one non-table,
non-formula region with a truthy string type and a `bbox` key: the OCR
branch runs and the fragment is kept exactly when nonempty. -/
theorem fragsGo_single_ocr (ocrTexts : JVal → List String) (formulaText : JVal → String)
    (cellOcr : JVal → List String) (fields : List (String × JVal)) (t : String)
    (ht : jget (.jobj fields) "type" = some (.jstr t)) (htne : t ≠ "")
    (hb : (jget (.jobj fields) "bbox").isNone = false)
    (hnt : t ≠ "table") (hnf : t ≠ "formula") :
    fragsGo ocrTexts formulaText cellOcr [.jobj fields]
      = (format_as_markdown (.jobj fields)
          (.str (joinSep " " (ocrTexts (.jobj fields))))).map
          (fun md => if md = "" then [] else [md]) := by
  unfold fragsGo
  rw [ht]
  have hsk : (!jTruthy (.jstr t) || (jget (.jobj fields) "bbox").isNone) = false := by
    simp [jTruthy, htne, hb]
  simp only [hsk, Bool.false_eq_true, if_false, Option.map_some', Option.getD_some]
  have h1 : jvalIsStr (.jstr t) "table" = false := by simp [jvalIsStr, hnt]
  have h2 : jvalIsStr (.jstr t) "formula" = false := by simp [jvalIsStr, hnf]
  simp only [h1, h2, Bool.false_eq_true, if_false]
  cases format_as_markdown (.jobj fields) (.str (joinSep " " (ocrTexts (.jobj fields)))) with
  | none => rfl
  | some md =>
    by_cases hmd : md = ""
    · simp [fragsGo, hmd]
    · simp [fragsGo, hmd]

/-- C8 counterexample.  Regions of type `heading`, `formula` and `image`
whose resolved content is empty *do* emit a markdown fragment — the bare
heading marker `"# "`, the empty math fence, and the empty image
reference — contradicting the claim that empty resolutions contribute no
fragment. -/
theorem empty_content_emits_degenerate_fragment :
    pageFragments true [.jobj [("type", .jstr "heading"), ("bbox", .jarr [.jnum 0])]]
      (fun _ => []) (fun _ => "") (fun _ => []) = some ["# "] ∧
    ("# " : String) ≠ "" ∧
    pageFragments true [.jobj [("type", .jstr "formula"), ("bbox", .jarr [.jnum 0])]]
      (fun _ => []) (fun _ => "") (fun _ => []) = some ["$$\n\n$$"] ∧
    pageFragments true [.jobj [("type", .jstr "image"), ("bbox", .jarr [.jnum 0])]]
      (fun _ => []) (fun _ => "") (fun _ => []) = some ["![]"] :=
  ⟨rfl, by decide, rfl, rfl⟩

/-- C8 amended.  For a well-formed region (object with a truthy string
`type` and a `bbox` key) whose resolved content is empty: regions of type
`list`, `paragraph`, `other` or any non-special type contribute no
fragment; but `heading`, `formula` and `chart_bar`/`chart_pie`/`image`
regions emit their type's degenerate wrapper (`"#"*level + " "`,
`"$$\n\n$$"`, `"![]"`); and the table formatter maps an empty grid to the
empty fragment, which is dropped. -/
theorem empty_content_fragments (fields : List (String × JVal)) (t : String)
    (ocrTexts : JVal → List String) (formulaText : JVal → String)
    (cellOcr : JVal → List String)
    (ht : jget (.jobj fields) "type" = some (.jstr t))
    (htne : t ≠ "")
    (hb : (jget (.jobj fields) "bbox").isNone = false) :
    (t ≠ "heading" → t ≠ "table" → t ≠ "formula" →
      t ≠ "chart_bar" → t ≠ "chart_pie" → t ≠ "image" →
      ocrTexts (.jobj fields) = [] →
      pageFragments true [.jobj fields] ocrTexts formulaText cellOcr = some []) ∧
    (t = "heading" → ocrTexts (.jobj fields) = [] →
      ∀ lvl, headingLevel (.jobj fields) = some lvl →
      pageFragments true [.jobj fields] ocrTexts formulaText cellOcr
        = some [String.mk (List.replicate lvl.toNat '#') ++ " "]) ∧
    (t = "formula" → formulaText (.jobj fields) = "" →
      pageFragments true [.jobj fields] ocrTexts formulaText cellOcr
        = some ["$$\n\n$$"]) ∧
    ((t = "chart_bar" ∨ t = "chart_pie" ∨ t = "image") → ocrTexts (.jobj fields) = [] →
      pageFragments true [.jobj fields] ocrTexts formulaText cellOcr
        = some ["![]"]) ∧
    (t = "table" → format_as_markdown (.jobj fields) (.grid []) = some "") := by
  refine ⟨?_, ?_, ?_, ?_, ?_⟩
  · intro hh htb hf hc1 hc2 hc3 hocr
    show fragsGo ocrTexts formulaText cellOcr [.jobj fields] = some []
    rw [fragsGo_single_ocr ocrTexts formulaText cellOcr fields t ht htne hb htb hf, hocr]
    unfold format_as_markdown
    rw [ht]
    simp only [Option.getD_some]
    have e1 : jvalIsStr (.jstr t) "heading" = false := by simp [jvalIsStr, hh]
    have e2 : jvalIsStr (.jstr t) "table" = false := by simp [jvalIsStr, htb]
    have e3 : jvalIsStr (.jstr t) "formula" = false := by simp [jvalIsStr, hf]
    have e4 : jvalIsStr (.jstr t) "chart_bar" = false := by simp [jvalIsStr, hc1]
    have e5 : jvalIsStr (.jstr t) "chart_pie" = false := by simp [jvalIsStr, hc2]
    have e6 : jvalIsStr (.jstr t) "image" = false := by simp [jvalIsStr, hc3]
    by_cases hl : jvalIsStr (.jstr t) "list" = true
    · simp only [e1, e2, e3, e4, e5, e6, hl, Bool.false_eq_true, if_false, if_true,
        Bool.false_or, Bool.or_false, Bool.or_self, fmtDataStr]
      rfl
    · rw [Bool.not_eq_true] at hl
      simp only [e1, e2, e3, e4, e5, e6, hl, Bool.false_eq_true, if_false,
        Bool.false_or, Bool.or_false, Bool.or_self, fmtDataStr]
      rfl
  · intro hh hocr lvl hlvl
    subst hh
    show fragsGo ocrTexts formulaText cellOcr [.jobj fields] = _
    rw [fragsGo_single_ocr ocrTexts formulaText cellOcr fields "heading" ht (by decide) hb
      (by decide) (by decide), hocr]
    unfold format_as_markdown
    rw [ht]
    simp only [Option.getD_some]
    rw [if_pos (by simp [jvalIsStr] : jvalIsStr (.jstr "heading") "heading" = true), hlvl]
    have hne2 : String.mk (List.replicate lvl.toNat '#') ++ " " ++ fmtDataStr (.str (joinSep " " [])) ≠ "" := by
      show String.mk (List.replicate lvl.toNat '#') ++ " " ++ "" ≠ ""
      intro hcon
      have := congrArg String.data hcon
      simp [String.data_append] at this
    simp only [Option.map_some', if_neg hne2]
    show some [String.mk (List.replicate lvl.toNat '#') ++ " " ++ ""] = _
    rw [show String.mk (List.replicate lvl.toNat '#') ++ " " ++ "" = String.mk (List.replicate lvl.toNat '#') ++ " " from by
      apply String.ext
      simp [String.data_append]]
  · intro hf hform
    subst hf
    show fragsGo ocrTexts formulaText cellOcr [.jobj fields] = _
    unfold fragsGo
    rw [ht]
    have hsk : (!jTruthy (.jstr "formula") || (jget (.jobj fields) "bbox").isNone) = false := by
      simp [jTruthy, hb]
    simp only [hsk, Bool.false_eq_true, if_false, Option.map_some', Option.getD_some]
    have h1 : jvalIsStr (.jstr "formula") "table" = false := by simp [jvalIsStr]
    have h2 : jvalIsStr (.jstr "formula") "formula" = true := by simp [jvalIsStr]
    simp only [h1, h2, Bool.false_eq_true, if_false, if_true, hform]
    rw [show format_as_markdown (.jobj fields) (.str "") = some "$$\n\n$$" from by
      unfold format_as_markdown
      rw [ht]
      rfl]
    unfold fragsGo
    simp
  · intro hch hocr
    have hne' : t ≠ "" ∧ t ≠ "table" ∧ t ≠ "formula" := by
      rcases hch with rfl | rfl | rfl <;> exact ⟨by decide, by decide, by decide⟩
    show fragsGo ocrTexts formulaText cellOcr [.jobj fields] = _
    rw [fragsGo_single_ocr ocrTexts formulaText cellOcr fields t ht hne'.1 hb hne'.2.1 hne'.2.2,
      hocr]
    unfold format_as_markdown
    rw [ht]
    simp only [Option.getD_some]
    rcases hch with rfl | rfl | rfl <;> rfl
  · intro ht'
    subst ht'
    unfold format_as_markdown
    rw [ht]
    rfl

/-- Witness for the amended C8: a level-defaulted heading with empty OCR
emits exactly the bare marker `"# "`. -/
theorem empty_content_fragments_witness :
    pageFragments true [.jobj [("type", .jstr "heading"), ("bbox", .jarr [.jnum 0])]]
      (fun _ => []) (fun _ => "") (fun _ => []) = some ["# "] := by
  have h := empty_content_fragments
    [("type", .jstr "heading"), ("bbox", .jarr [.jnum 0])] "heading"
    (fun _ => []) (fun _ => "") (fun _ => []) rfl (by decide) rfl
  have h2 := h.2.1 rfl rfl 1 rfl
  rw [h2]
  rfl

/-! ## Postprocessor idempotence: rewrite equations for the bullet scanner -/

theorem sbA_nil (a : Bool) (pend : List Char) : sbA a pend [] = pend.reverse := by
  cases a <;> (conv_lhs => unfold sbA)

theorem sbA_anch_sp (c : Char) (pend rest : List Char) (h1 : isSpc c = true) (h2 : c ≠ '*') :
    sbA true pend (c :: rest) = sbA true (c :: pend) rest := by
  conv_lhs => unfold sbA
  simp [h1, h2]

theorem sbA_anch_other (c : Char) (pend rest : List Char) (h1 : isSpc c = false) (h2 : c ≠ '*') :
    sbA true pend (c :: rest) = pend.reverse ++ c :: sbA false [] rest := by
  conv_lhs => unfold sbA
  simp [h1, h2]

theorem sbA_anch_star_sp (pend r : List Char) :
    sbA true pend ('*' :: ' ' :: r) = '-' :: ' ' :: sbA false [] r := by
  conv_lhs => unfold sbA
  simp

theorem sbA_anch_star_nil (pend : List Char) :
    sbA true pend ['*'] = pend.reverse ++ ['*'] := by
  conv_lhs => unfold sbA
  simp [sbA_nil]

theorem sbA_anch_star_other (c : Char) (pend r : List Char) (h : c ≠ ' ') :
    sbA true pend ('*' :: c :: r) = pend.reverse ++ '*' :: sbA false [] (c :: r) := by
  conv_lhs => unfold sbA
  simp [h]

theorem sbA_un_nl (pend rest : List Char) :
    sbA false pend ('\n' :: rest) = '\n' :: sbA true [] rest := by
  conv_lhs => unfold sbA
  simp

theorem sbA_un_other (c : Char) (pend rest : List Char) (h : c ≠ '\n') :
    sbA false pend (c :: rest) = c :: sbA false [] rest := by
  conv_lhs => unfold sbA
  simp [h]

/-! ## Trim algebra -/

theorem dropWhile_head_false {p : Char → Bool} {l : List Char} {c : Char} {r : List Char}
    (h : l.dropWhile p = c :: r) : p c = false := by
  induction l with
  | nil => simp [List.dropWhile] at h
  | cons d rest ih =>
    by_cases hd : p d
    · rw [List.dropWhile_cons_of_pos hd] at h; exact ih h
    · rw [List.dropWhile_cons_of_neg hd] at h
      rw [← List.cons.inj h |>.1]
      exact Bool.of_not_eq_true hd

theorem trimL_idem (l : List Char) : trimL (trimL l) = trimL l := by
  unfold trimL
  cases h : l.dropWhile isSpc with
  | nil => simp
  | cons c r => rw [List.dropWhile_cons_of_neg (by simp [dropWhile_head_false h])]

theorem allspace_dropWhile_nil {u : List Char} (h : u.all isSpc = true) :
    u.dropWhile isSpc = [] := by
  induction u with
  | nil => rfl
  | cons c r ih =>
    simp only [List.all_cons, Bool.and_eq_true] at h
    rw [List.dropWhile_cons_of_pos h.1]
    exact ih h.2

theorem trimR_eq_nil_iff (l : List Char) : trimR l = [] ↔ l.all isSpc = true := by
  induction l with
  | nil => simp [trimR]
  | cons c rest ih =>
    simp only [trimR, List.all_cons, Bool.and_eq_true]
    cases h : trimR rest with
    | nil =>
      have hr : rest.all isSpc = true := ih.mp h
      by_cases hc : isSpc c
      · simp [hc, hr]
      · simp [hc]
    | cons d r =>
      have hr : ¬ rest.all isSpc = true := fun ha => by
        rw [ih.mpr ha] at h; exact List.noConfusion h
      simp [hr]

theorem trimR_cons_ne {rest : List Char} (c : Char) (h : trimR rest ≠ []) :
    trimR (c :: rest) = c :: trimR rest := by
  simp only [trimR]
  cases hr : trimR rest with
  | nil => exact absurd hr h
  | cons d r => rfl

theorem trimR_cons_nil {rest : List Char} (c : Char) (h : trimR rest = []) :
    trimR (c :: rest) = if isSpc c then [] else [c] := by
  simp only [trimR, h]

theorem trimR_append_allspace {v : List Char} (u : List Char) (h : v.all isSpc = true) :
    trimR (u ++ v) = trimR u := by
  induction u with
  | nil => simpa [trimR] using (trimR_eq_nil_iff v).mpr h
  | cons c u ih =>
    show trimR (c :: (u ++ v)) = trimR (c :: u)
    simp only [trimR, ih]

theorem trimR_append_not_allspace {v : List Char} (u : List Char) (h : v.all isSpc = false) :
    trimR (u ++ v) = u ++ trimR v := by
  have hv : trimR v ≠ [] := fun hn => by
    rw [(trimR_eq_nil_iff v).mp hn] at h; exact Bool.noConfusion h
  induction u with
  | nil => rfl
  | cons c u ih =>
    show trimR (c :: (u ++ v)) = c :: (u ++ trimR v)
    rw [trimR_cons_ne c (by rw [ih]; simp [hv]), ih]

theorem trimR_idem (l : List Char) : trimR (trimR l) = trimR l := by
  induction l with
  | nil => rfl
  | cons c rest ih =>
    cases h : trimR rest with
    | nil =>
      rw [trimR_cons_nil c h]
      by_cases hc : isSpc c
      · simp [hc, trimR]
      · simp [hc, trimR]
    | cons d r =>
      rw [trimR_cons_ne c (by simp [h]), h]
      rw [h] at ih
      rw [trimR_cons_ne c (by rw [ih]; simp), ih]

theorem trimLR_comm (l : List Char) : trimL (trimR l) = trimR (trimL l) := by
  induction l with
  | nil => rfl
  | cons c rest ih =>
    by_cases hc : isSpc c
    · have hL : trimL (c :: rest) = trimL rest := by
        simp [trimL, List.dropWhile_cons_of_pos hc]
      cases h : trimR rest with
      | nil =>
        rw [trimR_cons_nil c h, if_pos hc, hL]
        rw [h] at ih
        simpa [trimL] using ih.symm
      | cons d r =>
        rw [trimR_cons_ne c (by simp [h]), hL, ← ih, h]
        simp [trimL, List.dropWhile_cons_of_pos hc]
    · have hc' : isSpc c = false := Bool.of_not_eq_true hc
      rw [trimL_cons_not_spc hc']
      cases h : trimR rest with
      | nil =>
        rw [trimR_cons_nil c h, if_neg hc]
        exact trimL_cons_not_spc hc'
      | cons d r =>
        rw [trimR_cons_ne c (by simp [h]), h]
        exact trimL_cons_not_spc hc'

theorem trim_trimL (l : List Char) : trim (trimL l) = trim l := by
  unfold trim
  rw [trimL_idem]

theorem trim_trimR (l : List Char) : trim (trimR l) = trim l := by
  unfold trim
  rw [trimLR_comm, trimR_idem]

theorem trim_idem (l : List Char) : trim (trim l) = trim l := by
  show trim (trimR (trimL l)) = trim l
  rw [trim_trimR, trim_trimL]

theorem trimR_prefix (l : List Char) : ∃ w, l = trimR l ++ w := by
  induction l with
  | nil => exact ⟨[], rfl⟩
  | cons c rest ih =>
    obtain ⟨w, hw⟩ := ih
    cases h : trimR rest with
    | nil =>
      rw [trimR_cons_nil c h]
      by_cases hc : isSpc c
      · exact ⟨c :: rest, by simp [hc]⟩
      · refine ⟨rest, ?_⟩; simp [hc]
    | cons d r =>
      rw [trimR_cons_ne c (by simp [h])]
      exact ⟨w, by rw [List.cons_append, ← hw]⟩

theorem mem_trimR {l : List Char} {c : Char} (h : c ∈ trimR l) : c ∈ l := by
  obtain ⟨w, hw⟩ := trimR_prefix l
  rw [hw]
  exact List.mem_append_left w h

theorem mem_trimL {l : List Char} {c : Char} (h : c ∈ trimL l) : c ∈ l := by
  rw [show l = l.takeWhile isSpc ++ l.dropWhile isSpc from
    (List.takeWhile_append_dropWhile isSpc l).symm]
  exact List.mem_append_right _ h

theorem mem_trim {l : List Char} {c : Char} (h : c ∈ trim l) : c ∈ l :=
  mem_trimL (mem_trimR h)

theorem trimR_head? (l : List Char) : trimR l = [] ∨ (trimR l).head? = l.head? := by
  cases l with
  | nil => exact Or.inl rfl
  | cons c rest =>
    cases h : trimR rest with
    | nil =>
      rw [trimR_cons_nil c h]
      by_cases hc : isSpc c
      · simp [hc]
      · simp [hc]
    | cons d r =>
      rw [trimR_cons_ne c (by simp [h])]
      simp

theorem trimL_append_allspace {u : List Char} (v : List Char) (h : u.all isSpc = true) :
    trimL (u ++ v) = trimL v := by
  unfold trimL
  rw [List.dropWhile_append, allspace_dropWhile_nil h]
  simp

theorem trimL_append_ne {u : List Char} (v : List Char) (h : trimL u ≠ []) :
    trimL (u ++ v) = trimL u ++ v := by
  unfold trimL
  rw [List.dropWhile_append]
  unfold trimL at h
  simp only [List.isEmpty_iff]
  rw [if_neg h]

theorem allspace_iff_trimL_nil (u : List Char) : u.all isSpc = true ↔ trimL u = [] := by
  constructor
  · exact allspace_dropWhile_nil
  · intro h
    induction u with
    | nil => rfl
    | cons c r ih =>
      by_cases hc : isSpc c
      · rw [show trimL (c :: r) = trimL r from by simp [trimL, List.dropWhile_cons_of_pos hc]] at h
        simp [List.all_cons, hc, ih h]
      · rw [trimL_cons_not_spc (Bool.of_not_eq_true hc)] at h
        exact absurd h (by simp)

/-! ## Line decomposition: splitLines and joinLines -/

theorem splitLines_ne_nil (l : List Char) : splitLines l ≠ [] := by
  cases l with
  | nil => simp [splitLines]
  | cons c rest =>
    simp only [splitLines]
    cases h : splitLines rest with
    | nil => simp
    | cons L Ls =>
      by_cases hc : c = '\n'
      · simp [hc]
      · simp [hc]

theorem splitLines_nlfree {l : List Char} (h : '\n' ∉ l) : splitLines l = [l] := by
  induction l with
  | nil => rfl
  | cons c rest ih =>
    have hc : ¬ c = '\n' := fun he => h (he ▸ List.mem_cons_self c rest)
    have hrest : '\n' ∉ rest := fun hm => h (List.mem_cons_of_mem c hm)
    simp only [splitLines, ih hrest]
    simp [hc]

theorem splitLines_append_nl {line : List Char} (rest : List Char) (h : '\n' ∉ line) :
    splitLines (line ++ '\n' :: rest) = line :: splitLines rest := by
  induction line with
  | nil =>
    simp only [List.nil_append, splitLines]
    cases hr : splitLines rest with
    | nil => exact absurd hr (splitLines_ne_nil rest)
    | cons L Ls => simp
  | cons c line ih =>
    have hc : ¬ c = '\n' := fun he => h (he ▸ List.mem_cons_self c line)
    have hline : '\n' ∉ line := fun hm => h (List.mem_cons_of_mem c hm)
    show splitLines (c :: (line ++ '\n' :: rest)) = (c :: line) :: splitLines rest
    simp only [splitLines, ih hline]
    simp [hc]

theorem joinLines_cons_ne (l : List Char) (ls : List (List Char)) (h : ls ≠ []) :
    joinLines (l :: ls) = l ++ '\n' :: joinLines ls := by
  cases ls with
  | nil => exact absurd rfl h
  | cons l' ls' => rfl

theorem joinLines_splitLines (l : List Char) : joinLines (splitLines l) = l := by
  induction l with
  | nil => rfl
  | cons c rest ih =>
    simp only [splitLines]
    cases h : splitLines rest with
    | nil => exact absurd h (splitLines_ne_nil rest)
    | cons L Ls =>
      rw [h] at ih
      by_cases hc : c = '\n'
      · subst hc
        simp only [if_true]
        rw [joinLines_cons_ne [] (L :: Ls) (by simp)]
        rw [ih]
        rfl
      · simp only [if_neg hc]
        cases Ls with
        | nil =>
          simp only [joinLines] at ih ⊢
          rw [ih]
        | cons L' Ls' =>
          rw [joinLines_cons_ne (c :: L) (L' :: Ls') (by simp),
            joinLines_cons_ne L (L' :: Ls') (by simp)] at *
          rw [List.cons_append, ih]

/-- Induction over the line structure of a character list: a property
that holds of every newline-free list and is preserved by prepending a
newline-free line (plus the separating newline) holds everywhere. -/
theorem lineInduction (P : List Char → Prop)
    (base : ∀ line, '\n' ∉ line → P line)
    (step : ∀ line rest, '\n' ∉ line → P rest → P (line ++ '\n' :: rest)) :
    ∀ l, P l := by
  have key : ∀ n l, l.length ≤ n → P l := by
    intro n
    induction n with
    | zero =>
      intro l hl
      have : l = [] := List.eq_nil_of_length_eq_zero (Nat.le_zero.mp hl)
      subst this
      exact base [] (by simp)
    | succ n ih =>
      intro l hl
      have hdecomp := List.takeWhile_append_dropWhile (fun c => c ≠ '\n') l
      cases hdw : l.dropWhile (fun c => c ≠ '\n') with
      | nil =>
        refine base l fun hmem => ?_
        have := List.dropWhile_eq_nil_iff.mp hdw _ hmem
        simp at this
      | cons c r =>
        have hc : c = '\n' := by
          have := dropWhile_head_false hdw
          simpa using this
        subst hc
        rw [hdw] at hdecomp
        have htw : '\n' ∉ l.takeWhile (fun c => c ≠ '\n') := fun hm => by
          have := List.mem_takeWhile_imp hm
          simp at this
        have hlen : r.length ≤ n := by
          have h1 : ((l.takeWhile (fun c => c ≠ '\n')) ++ '\n' :: r).length = l.length := by
            rw [hdecomp]
          simp only [List.length_append, List.length_cons] at h1
          omega
        rw [← hdecomp]
        exact step _ r htw (ih r hlen)
  exact fun l => key l.length l le_rfl

theorem nlfree_trim {line : List Char} (h : '\n' ∉ line) : '\n' ∉ trim line :=
  fun hm => h (mem_trim hm)

theorem nlfree_mathLine {line : List Char} (h : '\n' ∉ line) : '\n' ∉ mathLine line := by
  unfold mathLine
  split
  · intro hm
    rcases List.mem_cons.mp hm with h1 | h1
    · exact absurd h1 (by decide)
    · rcases List.mem_append.mp h1 with h2 | h2
      · exact nlfree_trim h h2
      · simp at h2
  · exact h

theorem mathLines_nlfree {line : List Char} (h : '\n' ∉ line) :
    mathLines line = mathLine line := by
  unfold mathLines
  rw [splitLines_nlfree h]
  rfl

theorem mathLines_append {line : List Char} (rest : List Char) (h : '\n' ∉ line) :
    mathLines (line ++ '\n' :: rest) = mathLine line ++ '\n' :: mathLines rest := by
  unfold mathLines
  rw [splitLines_append_nl rest h, List.map_cons,
    joinLines_cons_ne (mathLine line) (List.map mathLine (splitLines rest))
      (by simp [splitLines_ne_nil rest])]

/-! ## Substring occurrences: pullback lemmas -/

theorem hasSub_nil_pat (l : List Char) : hasSub [] l = true := by
  cases l with
  | nil => rfl
  | cons c r => simp [hasSub, List.isPrefixOf]

theorem hasSub_nil_list {p : List Char} (h : hasSub p [] = true) : p = [] := by
  simpa [hasSub, List.isEmpty_iff] using h

theorem hasSub_tail {p : List Char} {c : Char} {rest : List Char}
    (h : hasSub p (c :: rest) = false) : hasSub p rest = false := by
  simp only [hasSub, Bool.or_eq_false_iff] at h
  exact h.2

theorem prefix_extend {p a : List Char} (b : List Char) (h : p.isPrefixOf a = true) :
    p.isPrefixOf (a ++ b) = true := by
  rw [List.isPrefixOf_iff_prefix] at *
  exact h.trans (List.prefix_append a b)

theorem hasSub_append_left {p a : List Char} (b : List Char) (h : hasSub p a = true) :
    hasSub p (a ++ b) = true := by
  induction a with
  | nil =>
    rw [hasSub_nil_list h]
    exact hasSub_nil_pat b
  | cons c a ih =>
    simp only [hasSub, Bool.or_eq_true] at h
    rcases h with h | h
    · show hasSub p (c :: (a ++ b)) = true
      simp only [hasSub, Bool.or_eq_true]
      exact Or.inl (prefix_extend b h)
    · show hasSub p (c :: (a ++ b)) = true
      simp only [hasSub, Bool.or_eq_true]
      exact Or.inr (ih h)

theorem isPrefixOf_cons_head {e : Char} {p' : List Char} {x : Char} {xs : List Char}
    (h : (e :: p').isPrefixOf (x :: xs) = true) : e = x := by
  simp only [List.isPrefixOf, Bool.and_eq_true, beq_iff_eq] at h
  exact h.1

theorem prefix_junction {p : List Char} {d : Char} (a b : List Char)
    (hd : d ∉ p) (h : p.isPrefixOf (a ++ d :: b) = true) : p.isPrefixOf a = true := by
  induction a generalizing p with
  | nil =>
    cases p with
    | nil => rfl
    | cons e p' =>
      have : e = d := isPrefixOf_cons_head h
      exact absurd (this ▸ List.mem_cons_self e p') hd
  | cons x a' ih =>
    cases p with
    | nil => rfl
    | cons e p' =>
      have hx : e = x := isPrefixOf_cons_head h
      simp only [List.cons_append, List.isPrefixOf, Bool.and_eq_true, beq_iff_eq] at h
      simp only [List.isPrefixOf, Bool.and_eq_true, beq_iff_eq]
      exact ⟨hx, ih (fun hm => hd (List.mem_cons_of_mem e hm)) h.2⟩

theorem hasSub_junction {p : List Char} {d : Char} (a b : List Char) (hd : d ∉ p)
    (h : hasSub p (a ++ d :: b) = true) : hasSub p a = true ∨ hasSub p b = true := by
  induction a with
  | nil =>
    simp only [List.nil_append, hasSub, Bool.or_eq_true] at h
    rcases h with h | h
    · cases p with
      | nil => exact Or.inl (hasSub_nil_pat [])
      | cons e p' =>
        have : e = d := isPrefixOf_cons_head h
        exact absurd (this ▸ List.mem_cons_self e p') hd
    · exact Or.inr h
  | cons x a' ih =>
    simp only [List.cons_append, hasSub, Bool.or_eq_true] at h
    rcases h with h | h
    · left
      have := prefix_junction (x :: a') b hd (by simpa using h)
      simp only [hasSub, Bool.or_eq_true]
      exact Or.inl this
    · rcases ih h with h1 | h1
      · left
        simp only [hasSub, Bool.or_eq_true]
        exact Or.inr h1
      · exact Or.inr h1

theorem hasSub_allspace_absorb {p : List Char} (u m : List Char)
    (hu : u.all isSpc = true) (hp : ∀ c ∈ p, isSpc c = false) (hne : p ≠ [])
    (h : hasSub p (u ++ m) = true) : hasSub p m = true := by
  induction u with
  | nil => exact h
  | cons d u' ih =>
    simp only [List.all_cons, Bool.and_eq_true] at hu
    simp only [List.cons_append, hasSub, Bool.or_eq_true] at h
    rcases h with h | h
    · cases p with
      | nil => exact absurd rfl hne
      | cons e p' =>
        have he : e = d := isPrefixOf_cons_head h
        have : isSpc e = false := hp e (List.mem_cons_self e p')
        rw [he, hu.1] at this
        exact Bool.noConfusion this
    · exact ih hu.2 h

theorem trimR_pullback {p l : List Char} (h : hasSub p (trimR l) = true) :
    hasSub p l = true := by
  obtain ⟨w, hw⟩ := trimR_prefix l
  rw [hw]
  exact hasSub_append_left w h

theorem trimL_pullback {p l : List Char} (h : hasSub p (trimL l) = true) :
    hasSub p l = true := by
  rw [show l = l.takeWhile isSpc ++ l.dropWhile isSpc from
    (List.takeWhile_append_dropWhile isSpc l).symm]
  exact hasSub_append_of p _ _ h

theorem trim_pullback {p l : List Char} (h : hasSub p (trim l) = true) :
    hasSub p l = true :=
  trimL_pullback (trimR_pullback h)

theorem joinLines_sub {p : List Char} (Ms : List (List Char)) (hne : p ≠ [])
    (hnl : '\n' ∉ p) (h : hasSub p (joinLines Ms) = true) :
    ∃ M ∈ Ms, hasSub p M = true := by
  induction Ms with
  | nil => exact absurd (hasSub_nil_list h) hne
  | cons l ls ih =>
    cases hls : ls with
    | nil => exact ⟨l, by simp, by rw [hls] at h; simpa [joinLines] using h⟩
    | cons l' ls' =>
      rw [hls] at h ih
      rw [joinLines_cons_ne l (l' :: ls') (by simp)] at h
      rcases hasSub_junction l (joinLines (l' :: ls')) hnl h with h1 | h1
      · exact ⟨l, by simp, h1⟩
      · obtain ⟨M, hM, hsub⟩ := ih h1
        exact ⟨M, List.mem_cons_of_mem l hM, hsub⟩

theorem joinLines_mem {p M : List Char} (Ms : List (List Char)) (hM : M ∈ Ms)
    (h : hasSub p M = true) : hasSub p (joinLines Ms) = true := by
  induction Ms with
  | nil => exact absurd hM (List.not_mem_nil M)
  | cons l ls ih =>
    rcases List.mem_cons.mp hM with h1 | h1
    · subst h1
      cases hls : ls with
      | nil => simpa [joinLines] using h
      | cons l' ls' =>
        rw [joinLines_cons_ne M (l' :: ls') (by simp)]
        exact hasSub_append_left _ h
    · cases hls : ls with
      | nil => rw [hls] at h1; exact absurd h1 (List.not_mem_nil M)
      | cons l' ls' =>
        rw [joinLines_cons_ne l (l' :: ls') (by simp)]
        apply hasSub_append_of
        apply hasSub_cons_of
        rw [← hls]
        exact ih h1

theorem mathLine_pullback {p L : List Char} (hd : '$' ∉ p) (hne : p ≠ [])
    (h : hasSub p (mathLine L) = true) : hasSub p L = true := by
  unfold mathLine at h
  split at h
  · simp only [hasSub, Bool.or_eq_true] at h
    rcases h with h | h
    · cases p with
      | nil => exact absurd rfl hne
      | cons e p' =>
        have : e = '$' := isPrefixOf_cons_head h
        exact absurd (this ▸ List.mem_cons_self e p') hd
    · rcases hasSub_junction (trim L) [] hd (by simpa using h) with h1 | h1
      · exact trim_pullback h1
      · exact absurd (hasSub_nil_list h1) hne
  · exact h

theorem mathLines_pullback {p t : List Char} (hnl : '\n' ∉ p) (hd : '$' ∉ p)
    (hne : p ≠ []) (h : hasSub p (mathLines t) = true) : hasSub p t = true := by
  unfold mathLines at h
  obtain ⟨M', hM', hsub⟩ := joinLines_sub _ hne hnl h
  obtain ⟨M, hM, rfl⟩ := List.mem_map.mp hM'
  have := mathLine_pullback hd hne hsub
  have := joinLines_mem (splitLines t) hM this
  rwa [joinLines_splitLines] at this

theorem subB64_nil : subB64 [] = [] := by
  conv_lhs => unfold subB64

theorem subB64_id : ∀ l, hasSub b64lit l = false → subB64 l = l := by
  have key : ∀ n l, l.length ≤ n → hasSub b64lit l = false → subB64 l = l := by
    intro n
    induction n with
    | zero =>
      intro l hl _
      have : l = [] := List.eq_nil_of_length_eq_zero (Nat.le_zero.mp hl)
      subst this
      exact subB64_nil
    | succ n ih =>
      intro l hl h
      cases l with
      | nil => exact subB64_nil
      | cons c rest =>
        simp only [hasSub, Bool.or_eq_false_iff] at h
        have hm : matchB64 (c :: rest) = none := by
          unfold matchB64
          rw [h.1]
          simp
        conv_lhs => unfold subB64
        split
        case h_1 r heq => rw [hm] at heq; exact Option.noConfusion heq
        case h_2 heq =>
          have : subB64 rest = rest :=
            ih rest (by simpa using Nat.lt_succ_iff.mp (Nat.lt_of_lt_of_le (by simp) hl)) h.2
          rw [this]
  exact fun l => key l.length l le_rfl

theorem removeTicks_id : ∀ l, hasSub fence3 l = false → removeTicks l = l := by
  have key : ∀ n l, l.length ≤ n → hasSub fence3 l = false → removeTicks l = l := by
    intro n
    induction n with
    | zero =>
      intro l hl _
      have : l = [] := List.eq_nil_of_length_eq_zero (Nat.le_zero.mp hl)
      subst this
      rfl
    | succ n ih =>
      intro l hl h
      match l with
      | [] => rfl
      | [c] => rfl
      | [c, d] => rfl
      | c :: d :: e :: rest =>
        show removeTicks (c :: d :: e :: rest) = c :: d :: e :: rest
        by_cases ht : c = tick ∧ d = tick ∧ e = tick
        · exfalso
          obtain ⟨h1, h2, h3⟩ := ht
          subst h1; subst h2; subst h3
          have : hasSub fence3 (tick :: tick :: tick :: rest) = true := by
            have : fence3 ++ rest = tick :: tick :: tick :: rest := rfl
            rw [← this]
            exact hasSub_here fence3 rest
          rw [this] at h
          exact Bool.noConfusion h
        · rw [show removeTicks (c :: d :: e :: rest) = c :: removeTicks (d :: e :: rest) from by
            simp only [removeTicks, if_neg ht]]
          have : removeTicks (d :: e :: rest) = d :: e :: rest := by
            apply ih (d :: e :: rest) (by simp at hl ⊢; omega)
            exact hasSub_tail (p := fence3) (by simpa using h)
          rw [this]
  exact fun l => key l.length l le_rfl

/-! ## Math-wrapping algebra: stability under trim, idempotence -/

theorem mathLine_wrap {u : List Char}
    (h : (hasOp (trim u) && !(trim u).isEmpty && !dollarWrapped (trim u)) = true) :
    mathLine u = '$' :: (trim u ++ ['$']) := by
  unfold mathLine
  rw [if_pos h]

theorem mathLine_id {u : List Char}
    (h : (hasOp (trim u) && !(trim u).isEmpty && !dollarWrapped (trim u)) = false) :
    mathLine u = u := by
  unfold mathLine
  rw [if_neg (by simp [h])]

theorem trim_wrap (s : List Char) : trim ('$' :: (s ++ ['$'])) = '$' :: (s ++ ['$']) := by
  unfold trim
  rw [trimL_cons_not_spc (by decide)]
  rw [show ('$' :: (s ++ ['$'])) = ('$' :: s) ++ ['$'] from rfl]
  exact trimR_append_singleton ('$' :: s) '$' (by decide)

theorem dollarWrapped_wrap (s : List Char) : dollarWrapped ('$' :: (s ++ ['$'])) = true := by
  have h2 : ∀ l : List Char, (l ++ ['$']).getLast? = some '$' := fun l => by
    simp [List.getLast?_append]
  have hlast : ('$' :: (s ++ ['$'])).getLast? = some '$' := by
    rw [← List.cons_append]
    exact h2 ('$' :: s)
  unfold dollarWrapped
  simp [hlast]

theorem mathLine_mathLine (u : List Char) : mathLine (mathLine u) = mathLine u := by
  by_cases h : (hasOp (trim u) && !(trim u).isEmpty && !dollarWrapped (trim u)) = true
  · rw [mathLine_wrap h]
    apply mathLine_id
    rw [trim_wrap, dollarWrapped_wrap]
    simp
  · rw [mathLine_id (Bool.of_not_eq_true h), mathLine_id (Bool.of_not_eq_true h)]

theorem mathLine_trimL (u : List Char) : mathLine (trimL u) = trimL (mathLine u) := by
  have hc : trim (trimL u) = trim u := trim_trimL u
  by_cases h : (hasOp (trim u) && !(trim u).isEmpty && !dollarWrapped (trim u)) = true
  · rw [mathLine_wrap (by rw [hc]; exact h), mathLine_wrap h, hc,
      trimL_cons_not_spc (by decide)]
  · rw [mathLine_id (by rw [hc]; exact Bool.of_not_eq_true h),
      mathLine_id (Bool.of_not_eq_true h)]

theorem mathLine_trimR (u : List Char) : mathLine (trimR u) = trimR (mathLine u) := by
  have hc : trim (trimR u) = trim u := trim_trimR u
  by_cases h : (hasOp (trim u) && !(trim u).isEmpty && !dollarWrapped (trim u)) = true
  · rw [mathLine_wrap (by rw [hc]; exact h), mathLine_wrap h, hc,
      show ('$' :: (trim u ++ ['$'])) = ('$' :: trim u) ++ ['$'] from rfl,
      trimR_append_singleton ('$' :: trim u) '$' (by decide)]
  · rw [mathLine_id (by rw [hc]; exact Bool.of_not_eq_true h),
      mathLine_id (Bool.of_not_eq_true h)]

theorem trim_allspace {u : List Char} (h : u.all isSpc = true) : trim u = [] := by
  unfold trim
  rw [(allspace_iff_trimL_nil u).mp h]
  rfl

theorem allspace_mathLine {u : List Char} (h : u.all isSpc = true) : mathLine u = u := by
  apply mathLine_id
  rw [trim_allspace h]
  simp

theorem allspace_mathLines {t : List Char} (h : t.all isSpc = true) : mathLines t = t := by
  induction t using lineInduction with
  | base line hl => rw [mathLines_nlfree hl]; exact allspace_mathLine h
  | step line rest hl ih =>
    simp only [List.all_append, List.all_cons, Bool.and_eq_true] at h
    rw [mathLines_append rest hl, allspace_mathLine h.1, ih h.2.2]

theorem nonallspace_mathLine {u : List Char} (h : u.all isSpc = false) :
    (mathLine u).all isSpc = false := by
  by_cases hc : (hasOp (trim u) && !(trim u).isEmpty && !dollarWrapped (trim u)) = true
  · rw [mathLine_wrap hc]
    simp [show isSpc '$' = false from by decide]
  · rw [mathLine_id (Bool.of_not_eq_true hc)]
    exact h

theorem wrap_all_false (s : List Char) : ('$' :: s).all isSpc = false := by
  simp [show isSpc '$' = false from by decide]

theorem nonallspace_mathLines {t : List Char} (h : t.all isSpc = false) :
    (mathLines t).all isSpc = false := by
  induction t using lineInduction with
  | base line hl =>
    rw [mathLines_nlfree hl]
    exact nonallspace_mathLine h
  | step line rest hl ih =>
    rw [mathLines_append rest hl]
    simp only [List.all_append, List.all_cons] at h ⊢
    rcases Bool.and_eq_false_iff.mp h with h1 | h1
    · rw [nonallspace_mathLine h1]
      rfl
    · rcases Bool.and_eq_false_iff.mp h1 with h2 | h2
      · exact absurd h2 (by decide)
      · rw [ih h2]
        simp

theorem trimL_mathLines_comm (t : List Char) :
    trimL (mathLines t) = mathLines (trimL t) := by
  induction t using lineInduction with
  | base line hl =>
    rw [mathLines_nlfree hl, mathLines_nlfree (fun hm => hl (mem_trimL hm)),
      mathLine_trimL]
  | step line rest hl ih =>
    rw [mathLines_append rest hl]
    by_cases ha : line.all isSpc = true
    · rw [allspace_mathLine ha]
      have hsp : (line ++ ['\n']).all isSpc = true := by
        simp only [List.all_append, ha]
        decide
      rw [show line ++ '\n' :: mathLines rest = (line ++ ['\n']) ++ mathLines rest from by
          simp,
        trimL_append_allspace _ hsp,
        show line ++ '\n' :: rest = (line ++ ['\n']) ++ rest from by simp,
        trimL_append_allspace _ hsp, ih]
    · have ha' : line.all isSpc = false := Bool.of_not_eq_true ha
      have hlne : trimL line ≠ [] := fun hn => ha ((allspace_iff_trimL_nil line).mpr hn)
      have hmlne : trimL (mathLine line) ≠ [] := fun hn => by
        have := (allspace_iff_trimL_nil (mathLine line)).mpr hn
        rw [nonallspace_mathLine ha'] at this
        exact Bool.noConfusion this
      rw [trimL_append_ne _ hmlne, trimL_append_ne _ hlne,
        mathLines_append rest (fun hm => hl (mem_trimL hm)), ← mathLine_trimL]

theorem trimR_mathLines_comm (t : List Char) :
    trimR (mathLines t) = mathLines (trimR t) := by
  induction t using lineInduction with
  | base line hl =>
    rw [mathLines_nlfree hl, mathLines_nlfree (fun hm => hl (mem_trimR hm)),
      mathLine_trimR]
  | step line rest hl ih =>
    rw [mathLines_append rest hl]
    by_cases ha : rest.all isSpc = true
    · rw [allspace_mathLines ha]
      have hsp : ('\n' :: rest).all isSpc = true := by
        simp only [List.all_cons, ha]
        decide
      rw [trimR_append_allspace _ hsp, trimR_append_allspace _ hsp,
        mathLines_nlfree (fun hm => hl (mem_trimR hm)), mathLine_trimR]
    · have ha' : rest.all isSpc = false := Bool.of_not_eq_true ha
      have hmla : (mathLines rest).all isSpc = false := nonallspace_mathLines ha'
      have h1 : ('\n' :: mathLines rest).all isSpc = false := by
        simp [hmla]
      have h2 : ('\n' :: rest).all isSpc = false := by
        simp [ha']
      have hr1 : trimR (mathLines rest) ≠ [] := fun hn => by
        have := (trimR_eq_nil_iff (mathLines rest)).mp hn
        rw [hmla] at this
        exact Bool.noConfusion this
      have hr2 : trimR rest ≠ [] := fun hn => by
        have := (trimR_eq_nil_iff rest).mp hn
        rw [ha'] at this
        exact Bool.noConfusion this
      rw [trimR_append_not_allspace _ h1, trimR_append_not_allspace _ h2,
        trimR_cons_ne _ hr1, trimR_cons_ne _ hr2, ih,
        mathLines_append (trimR rest) hl]

theorem trim_mathLines_comm (t : List Char) : trim (mathLines t) = mathLines (trim t) := by
  unfold trim
  rw [trimL_mathLines_comm, trimR_mathLines_comm]

theorem mathLines_idem (t : List Char) : mathLines (mathLines t) = mathLines t := by
  induction t using lineInduction with
  | base line hl =>
    rw [mathLines_nlfree hl, mathLines_nlfree (nlfree_mathLine hl), mathLine_mathLine]
  | step line rest hl ih =>
    rw [mathLines_append rest hl, mathLines_append (mathLines rest) (nlfree_mathLine hl),
      mathLine_mathLine, ih]

/-! ## Bullet-match freeness: noStarHead and noBulAuxP -/

theorem noBulAuxP_cons_nl (rest : List Char) :
    noBulAuxP ('\n' :: rest) = (noStarHead rest && noBulAuxP rest) := rfl

theorem noBulAuxP_cons {c : Char} (rest : List Char) (h : c ≠ '\n') :
    noBulAuxP (c :: rest) = noBulAuxP rest := by
  conv_lhs => unfold noBulAuxP
  split
  · rename_i heq
    exact List.noConfusion heq
  · rename_i r heq
    exact absurd (List.cons.inj heq).1 h
  · rename_i x r heq
    rw [(List.cons.inj heq).2]

theorem noStarHead_cons_sp {c : Char} (m : List Char) (h : isSpc c = true) :
    noStarHead (c :: m) = noStarHead m := by
  unfold noStarHead
  rw [List.dropWhile_cons_of_pos h]

theorem noStarHead_cons_nonsp {c : Char} (m : List Char) (h1 : isSpc c = false)
    (h2 : c ≠ '*') : noStarHead (c :: m) = true := by
  unfold noStarHead
  rw [List.dropWhile_cons_of_neg (by simp [h1])]
  split
  · rename_i heq; exact absurd (List.cons.inj heq).1 h2
  · rfl

theorem noStarHead_star_sp (r : List Char) : noStarHead ('*' :: ' ' :: r) = false := by
  unfold noStarHead
  rw [List.dropWhile_cons_of_neg (by decide)]
  split
  · rfl
  · rename_i hne
    exact absurd rfl (hne r)

theorem noStarHead_star_other (m : List Char) (h : m.head? ≠ some ' ') :
    noStarHead ('*' :: m) = true := by
  unfold noStarHead
  rw [List.dropWhile_cons_of_neg (by decide)]
  split
  · rename_i heq
    obtain ⟨h1, h2⟩ := List.cons.inj heq
    subst h2
    simp at h
  · rfl

theorem noStarHead_allspace {u : List Char} (h : u.all isSpc = true) :
    noStarHead u = true := by
  unfold noStarHead
  rw [allspace_dropWhile_nil h]

theorem noStarHead_append_allspace {u : List Char} (v : List Char)
    (h : u.all isSpc = true) : noStarHead (u ++ v) = noStarHead v := by
  unfold noStarHead
  rw [List.dropWhile_append, allspace_dropWhile_nil h]
  simp

theorem noStarHead_trimL (l : List Char) : noStarHead (trimL l) = noStarHead l := by
  unfold noStarHead
  rw [show List.dropWhile isSpc (trimL l) = List.dropWhile isSpc l from trimL_idem l]

theorem noStarHead_append_of_dropWhile {l : List Char} {x : Char} {xs : List Char}
    (h : l.dropWhile isSpc = x :: xs) (v : List Char) :
    noStarHead (l ++ v) = noStarHead (x :: (xs ++ v)) := by
  have hx : isSpc x = false := dropWhile_head_false h
  unfold noStarHead
  rw [List.dropWhile_append, h, List.dropWhile_cons_of_neg (by simp [hx])]
  simp

theorem noBulAuxP_allspace {u : List Char} (h : u.all isSpc = true) :
    noBulAuxP u = true := by
  induction u with
  | nil => rfl
  | cons c rest ih =>
    simp only [List.all_cons, Bool.and_eq_true] at h
    by_cases hc : c = '\n'
    · subst hc
      rw [noBulAuxP_cons_nl, noStarHead_allspace h.2, ih h.2]
      rfl
    · rw [noBulAuxP_cons rest hc]
      exact ih h.2

theorem noBulAuxP_nlfree {m : List Char} (h : '\n' ∉ m) : noBulAuxP m = true := by
  induction m with
  | nil => rfl
  | cons c rest ih =>
    have hc : c ≠ '\n' := fun he => h (he ▸ List.mem_cons_self c rest)
    rw [noBulAuxP_cons rest hc]
    exact ih fun hm => h (List.mem_cons_of_mem c hm)

theorem noBulAuxP_tail {c : Char} {m : List Char} (h : noBulAuxP (c :: m) = true) :
    noBulAuxP m = true := by
  by_cases hc : c = '\n'
  · subst hc
    rw [noBulAuxP_cons_nl] at h
    exact (Bool.and_eq_true _ _ |>.mp h).2
  · rwa [noBulAuxP_cons m hc] at h

theorem noBulAuxP_append_nl {u : List Char} (v : List Char) (h : '\n' ∉ u) :
    noBulAuxP (u ++ '\n' :: v) = (noStarHead v && noBulAuxP v) := by
  induction u with
  | nil => rfl
  | cons c u' ih =>
    have hc : c ≠ '\n' := fun he => h (he ▸ List.mem_cons_self c u')
    show noBulAuxP (c :: (u' ++ '\n' :: v)) = _
    rw [noBulAuxP_cons _ hc]
    exact ih fun hm => h (List.mem_cons_of_mem c hm)

theorem noBulAuxP_append_allspace {u m : List Char} (hu : u.all isSpc = true)
    (h1 : noStarHead m = true) (h2 : noBulAuxP m = true) :
    noBulAuxP (u ++ m) = true := by
  induction u with
  | nil => exact h2
  | cons d u' ih =>
    simp only [List.all_cons, Bool.and_eq_true] at hu
    show noBulAuxP (d :: (u' ++ m)) = true
    by_cases hd : d = '\n'
    · subst hd
      rw [noBulAuxP_cons_nl, noStarHead_append_allspace m hu.2, h1, ih hu.2]
      rfl
    · rw [noBulAuxP_cons _ hd]
      exact ih hu.2

theorem noBulAuxP_trimL {l : List Char} (h : noBulAuxP l = true) :
    noBulAuxP (trimL l) = true := by
  induction l with
  | nil => exact h
  | cons c rest ih =>
    by_cases hc : isSpc c
    · rw [show trimL (c :: rest) = trimL rest from by
        simp [trimL, List.dropWhile_cons_of_pos hc]]
      exact ih (noBulAuxP_tail h)
    · rwa [trimL_cons_not_spc (Bool.of_not_eq_true hc)]

theorem sbA_false_head (l : List Char) : (sbA false [] l).head? = l.head? := by
  cases l with
  | nil => rw [sbA_nil]; rfl
  | cons c rest =>
    by_cases hc : c = '\n'
    · subst hc; rw [sbA_un_nl]; rfl
    · rw [sbA_un_other c [] rest hc]; rfl

/-! ## Occurrence pullback through the bullet scanner -/

theorem prefix_head_mem {q : List Char} {x : Char} {xs : List Char}
    (h : q.isPrefixOf (x :: xs) = true) (hne : q ≠ []) : x ∈ q := by
  cases q with
  | nil => exact absurd rfl hne
  | cons e q' => exact (isPrefixOf_cons_head h) ▸ List.mem_cons_self e q'

theorem prefix_head_not_spc {q : List Char}
    (hq : ∀ c ∈ q, isSpc c = false) (hne : q ≠ []) {x : Char} {xs : List Char}
    (hx : isSpc x = true) (h : q.isPrefixOf (x :: xs) = true) : False := by
  have := hq x (prefix_head_mem h hne)
  rw [hx] at this
  exact Bool.noConfusion this

theorem prefix_allspace_append {q A m : List Char}
    (hq : ∀ c ∈ q, isSpc c = false) (hne : q ≠ []) (hA : A.all isSpc = true)
    (h : q.isPrefixOf (A ++ m) = true) : A = [] ∧ q.isPrefixOf m = true := by
  cases A with
  | nil => exact ⟨rfl, h⟩
  | cons a A' =>
    simp only [List.all_cons, Bool.and_eq_true] at hA
    exact absurd (prefix_head_not_spc hq hne hA.1 h) (by simp)

theorem hasSub_allspace {q u : List Char} (hu : u.all isSpc = true)
    (hq : ∀ c ∈ q, isSpc c = false) (hne : q ≠ []) (h : hasSub q u = true) : False := by
  have := hasSub_allspace_absorb u [] hu hq hne (by simpa using h)
  exact hne (hasSub_nil_list this)

theorem sbA_prefix_pullback :
    ∀ n l, l.length ≤ n → ∀ q : List Char, q ≠ [] →
    (∀ c ∈ q, isSpc c = false ∧ c ≠ '-' ∧ c ≠ '*') →
    (∀ pend, pend.all isSpc = true →
      q.isPrefixOf (sbA true pend l) = true → pend = [] ∧ q.isPrefixOf l = true) ∧
    (q.isPrefixOf (sbA false [] l) = true → q.isPrefixOf l = true) := by
  intro n
  induction n with
  | zero =>
    intro l hl q hne hq
    have : l = [] := List.eq_nil_of_length_eq_zero (Nat.le_zero.mp hl)
    subst this
    constructor
    · intro pend hpend h
      rw [sbA_nil] at h
      cases pend with
      | nil => exact ⟨rfl, h⟩
      | cons p ps =>
        exfalso
        cases hrev : (p :: ps).reverse with
        | nil => simp at hrev
        | cons x xs =>
          rw [hrev] at h
          have hx : isSpc x = true := by
            have hmem : x ∈ (p :: ps).reverse := by rw [hrev]; exact List.mem_cons_self x xs
            rw [List.mem_reverse] at hmem
            exact (List.all_eq_true.mp hpend x hmem)
          exact prefix_head_not_spc (fun c hc => (hq c hc).1) hne hx h
    · intro h
      rwa [sbA_nil] at h
  | succ n ih =>
    intro l hl q hne hq
    cases l with
    | nil =>
      constructor
      · intro pend hpend h
        rw [sbA_nil] at h
        cases pend with
        | nil => exact ⟨rfl, h⟩
        | cons p ps =>
          exfalso
          cases hrev : (p :: ps).reverse with
          | nil => simp at hrev
          | cons x xs =>
            rw [hrev] at h
            have hx : isSpc x = true := by
              have hmem : x ∈ (p :: ps).reverse := by rw [hrev]; exact List.mem_cons_self x xs
              rw [List.mem_reverse] at hmem
              exact (List.all_eq_true.mp hpend x hmem)
            exact prefix_head_not_spc (fun c hc => (hq c hc).1) hne hx h
      · intro h
        rwa [sbA_nil] at h
    | cons c rest =>
      have hrl : rest.length ≤ n := by simp at hl; omega
      constructor
      · intro pend hpend h
        by_cases hstar : c = '*'
        · subst hstar
          exfalso
          cases rest with
          | nil =>
            rw [sbA_anch_star_nil] at h
            obtain ⟨_, hpm⟩ :=
              prefix_allspace_append (fun c hc => (hq c hc).1) hne (by simpa using hpend) h
            exact (hq '*' (prefix_head_mem hpm hne)).2.2 rfl
          | cons c2 r =>
            by_cases hsp : c2 = ' '
            · subst hsp
              rw [sbA_anch_star_sp] at h
              exact (hq '-' (prefix_head_mem h hne)).2.1 rfl
            · rw [sbA_anch_star_other c2 pend r hsp] at h
              obtain ⟨_, hpm⟩ :=
                prefix_allspace_append (fun c hc => (hq c hc).1) hne (by simpa using hpend) h
              exact (hq '*' (prefix_head_mem hpm hne)).2.2 rfl
        · by_cases hspc : isSpc c = true
          · rw [sbA_anch_sp c pend rest hspc hstar] at h
            have := ((ih rest hrl q hne hq).1 (c :: pend) (by simp [hpend, hspc]) h).1
            exact absurd this (List.cons_ne_nil c pend)
          · rw [sbA_anch_other c pend rest (Bool.of_not_eq_true hspc) hstar] at h
            obtain ⟨hpnil, hpm⟩ :=
              prefix_allspace_append (fun c hc => (hq c hc).1) hne (by simpa using hpend) h
            refine ⟨by simpa using hpnil, ?_⟩
            cases q with
            | nil => exact absurd rfl hne
            | cons e q' =>
              have hec : e = c := isPrefixOf_cons_head hpm
              subst hec
              simp only [List.isPrefixOf, Bool.and_eq_true, beq_iff_eq] at hpm ⊢
              refine ⟨trivial, ?_⟩
              by_cases hq'nil : q' = []
              · subst hq'nil
                rw [List.isPrefixOf_iff_prefix]
                exact List.nil_prefix
              · exact (ih rest hrl q' hq'nil
                  (fun c hc => hq c (List.mem_cons_of_mem e hc))).2 hpm.2
      · intro h
        by_cases hnl : c = '\n'
        · subst hnl
          rw [sbA_un_nl] at h
          exact absurd h (by
            intro hcon
            exact prefix_head_not_spc (fun c hc => (hq c hc).1) hne (by decide) hcon)
        · rw [sbA_un_other c [] rest hnl] at h
          cases q with
          | nil => exact absurd rfl hne
          | cons e q' =>
            have hec : e = c := isPrefixOf_cons_head h
            subst hec
            simp only [List.isPrefixOf, Bool.and_eq_true, beq_iff_eq] at h ⊢
            refine ⟨trivial, ?_⟩
            by_cases hq'nil : q' = []
            · subst hq'nil
              rw [List.isPrefixOf_iff_prefix]
              exact List.nil_prefix
            · exact (ih rest hrl q' hq'nil
                (fun c hc => hq c (List.mem_cons_of_mem e hc))).2 h.2

theorem prefix_cons_pullback {q : List Char} {c : Char} {rest : List Char}
    (hne : q ≠ []) (hq : ∀ c ∈ q, isSpc c = false ∧ c ≠ '-' ∧ c ≠ '*')
    (h : q.isPrefixOf (c :: sbA false [] rest) = true) :
    q.isPrefixOf (c :: rest) = true := by
  cases q with
  | nil => exact absurd rfl hne
  | cons e q' =>
    have hec : e = c := isPrefixOf_cons_head h
    subst hec
    simp only [List.isPrefixOf, Bool.and_eq_true, beq_iff_eq] at h ⊢
    refine ⟨trivial, ?_⟩
    by_cases hq'nil : q' = []
    · subst hq'nil
      rw [List.isPrefixOf_iff_prefix]
      exact List.nil_prefix
    · exact (sbA_prefix_pullback rest.length rest le_rfl q' hq'nil
        (fun c hc => hq c (List.mem_cons_of_mem e hc))).2 h.2

theorem sbA_sub_pullback :
    ∀ n l, l.length ≤ n → ∀ q : List Char, q ≠ [] →
    (∀ c ∈ q, isSpc c = false ∧ c ≠ '-' ∧ c ≠ '*') →
    (∀ pend, pend.all isSpc = true →
      hasSub q (sbA true pend l) = true → hasSub q l = true) ∧
    (hasSub q (sbA false [] l) = true → hasSub q l = true) := by
  intro n
  induction n with
  | zero =>
    intro l hl q hne hq
    have : l = [] := List.eq_nil_of_length_eq_zero (Nat.le_zero.mp hl)
    subst this
    constructor
    · intro pend hpend h
      rw [sbA_nil] at h
      exact absurd (hasSub_allspace (by simpa using hpend)
        (fun c hc => (hq c hc).1) hne h) (fun hf => hf)
    · intro h
      rwa [sbA_nil] at h
  | succ n ih =>
    intro l hl q hne hq
    cases l with
    | nil =>
      constructor
      · intro pend hpend h
        rw [sbA_nil] at h
        exact absurd (hasSub_allspace (by simpa using hpend)
          (fun c hc => (hq c hc).1) hne h) (fun hf => hf)
      · intro h
        rwa [sbA_nil] at h
    | cons c rest =>
      have hrl : rest.length ≤ n := by simp at hl; omega
      constructor
      · intro pend hpend h
        by_cases hstar : c = '*'
        · subst hstar
          cases rest with
          | nil =>
            exfalso
            rw [sbA_anch_star_nil] at h
            have h2 := hasSub_allspace_absorb pend.reverse ['*'] (by simpa using hpend)
              (fun c hc => (hq c hc).1) hne h
            simp only [hasSub, Bool.or_eq_true] at h2
            rcases h2 with h2 | h2
            · exact (hq '*' (prefix_head_mem h2 hne)).2.2 rfl
            · exact hne (hasSub_nil_list h2)
          | cons c2 r =>
            by_cases hsp : c2 = ' '
            · subst hsp
              rw [sbA_anch_star_sp] at h
              simp only [hasSub, Bool.or_eq_true] at h
              rcases h with h | h | h
              · exact absurd ((hq '-' (prefix_head_mem h hne)).2.1 rfl) (fun hf => hf)
              · exact absurd
                  (prefix_head_not_spc (fun c hc => (hq c hc).1) hne (by decide) h)
                  (fun hf => hf)
              · have := (ih r (by simp at hl; omega) q hne hq).2 h
                exact hasSub_cons_of q '*' _ (hasSub_cons_of q ' ' _ this)
            · rw [sbA_anch_star_other c2 pend r hsp] at h
              have h2 := hasSub_allspace_absorb pend.reverse _ (by simpa using hpend)
                (fun c hc => (hq c hc).1) hne h
              simp only [hasSub, Bool.or_eq_true] at h2
              rcases h2 with h2 | h2
              · exact absurd ((hq '*' (prefix_head_mem h2 hne)).2.2 rfl) (fun hf => hf)
              · have := (ih (c2 :: r) hrl q hne hq).2 h2
                exact hasSub_cons_of q '*' _ this
        · by_cases hspc : isSpc c = true
          · rw [sbA_anch_sp c pend rest hspc hstar] at h
            have := (ih rest hrl q hne hq).1 (c :: pend) (by simp [hpend, hspc]) h
            exact hasSub_cons_of q c rest this
          · rw [sbA_anch_other c pend rest (Bool.of_not_eq_true hspc) hstar] at h
            have h2 := hasSub_allspace_absorb pend.reverse _ (by simpa using hpend)
              (fun c hc => (hq c hc).1) hne h
            simp only [hasSub, Bool.or_eq_true] at h2
            rcases h2 with h2 | h2
            · have := prefix_cons_pullback hne hq h2
              show hasSub q (c :: rest) = true
              simp only [hasSub, Bool.or_eq_true]
              exact Or.inl this
            · have := (ih rest hrl q hne hq).2 h2
              exact hasSub_cons_of q c rest this
      · intro h
        by_cases hnl : c = '\n'
        · subst hnl
          rw [sbA_un_nl] at h
          simp only [hasSub, Bool.or_eq_true] at h
          rcases h with h | h
          · exact absurd
              (prefix_head_not_spc (fun c hc => (hq c hc).1) hne (by decide) h)
              (fun hf => hf)
          · have := (ih rest hrl q hne hq).1 [] (by simp) h
            exact hasSub_cons_of q '\n' rest this
        · rw [sbA_un_other c [] rest hnl] at h
          simp only [hasSub, Bool.or_eq_true] at h
          rcases h with h | h
          · have := prefix_cons_pullback hne hq h
            show hasSub q (c :: rest) = true
            simp only [hasSub, Bool.or_eq_true]
            exact Or.inl this
          · have := (ih rest hrl q hne hq).2 h
            exact hasSub_cons_of q c rest this

theorem subBullets_pullback {q l : List Char} (hne : q ≠ [])
    (hq : ∀ c ∈ q, isSpc c = false ∧ c ≠ '-' ∧ c ≠ '*')
    (h : hasSub q (subBullets l) = true) : hasSub q l = true :=
  (sbA_sub_pullback l.length l le_rfl q hne hq).1 [] (by simp) h

theorem nonspc_ne_nl {c : Char} (h : isSpc c = false) : c ≠ '\n' := by
  intro he
  subst he
  exact absurd h (by decide)

theorem sbA_id :
    ∀ n l, l.length ≤ n →
    (∀ pend, pend.all isSpc = true → noStarHead l = true → noBulAuxP l = true →
      sbA true pend l = pend.reverse ++ l) ∧
    (noBulAuxP l = true → sbA false [] l = l) := by
  intro n
  induction n with
  | zero =>
    intro l hl
    have : l = [] := List.eq_nil_of_length_eq_zero (Nat.le_zero.mp hl)
    subst this
    exact ⟨fun pend _ _ _ => by rw [sbA_nil]; simp, fun _ => by rw [sbA_nil]; rfl⟩
  | succ n ih =>
    intro l hl
    cases l with
    | nil =>
      exact ⟨fun pend _ _ _ => by rw [sbA_nil]; simp, fun _ => by rw [sbA_nil]; rfl⟩
    | cons c rest =>
      have hrl : rest.length ≤ n := by simp at hl; omega
      constructor
      · intro pend hpend hnsh hnba
        by_cases hstar : c = '*'
        · subst hstar
          cases rest with
          | nil => rw [sbA_anch_star_nil]
          | cons c2 r =>
            by_cases hsp : c2 = ' '
            · subst hsp
              rw [noStarHead_star_sp r] at hnsh
              exact Bool.noConfusion hnsh
            · rw [sbA_anch_star_other c2 pend r hsp]
              have hnb2 : noBulAuxP (c2 :: r) = true := by
                rwa [noBulAuxP_cons (c2 :: r) (by decide)] at hnba
              rw [(ih (c2 :: r) hrl).2 hnb2]
        · by_cases hspc : isSpc c = true
          · rw [sbA_anch_sp c pend rest hspc hstar]
            rw [(ih rest hrl).1 (c :: pend) (by simp [hpend, hspc])
              (by rwa [noStarHead_cons_sp rest hspc] at hnsh) (noBulAuxP_tail hnba)]
            simp
          · rw [sbA_anch_other c pend rest (Bool.of_not_eq_true hspc) hstar]
            rw [(ih rest hrl).2 (noBulAuxP_tail hnba)]
      · intro hnba
        by_cases hnl : c = '\n'
        · subst hnl
          rw [sbA_un_nl]
          rw [noBulAuxP_cons_nl rest, Bool.and_eq_true] at hnba
          rw [(ih rest hrl).1 [] (by simp) hnba.1 hnba.2]
          rfl
        · rw [sbA_un_other c [] rest hnl]
          rw [(ih rest hrl).2 (by rwa [noBulAuxP_cons rest hnl] at hnba)]

theorem subBullets_id {l : List Char} (h : noBul l = true) : subBullets l = l := by
  rw [noBul, Bool.and_eq_true] at h
  unfold subBullets
  rw [(sbA_id l.length l le_rfl).1 [] (by simp) h.1 h.2]
  rfl

theorem sbA_noBul :
    ∀ n l, l.length ≤ n →
    (∀ pend, pend.all isSpc = true → noBul (sbA true pend l) = true) ∧
    (noBulAuxP (sbA false [] l) = true) := by
  intro n
  induction n with
  | zero =>
    intro l hl
    have : l = [] := List.eq_nil_of_length_eq_zero (Nat.le_zero.mp hl)
    subst this
    constructor
    · intro pend hpend
      rw [sbA_nil, noBul, Bool.and_eq_true]
      exact ⟨noStarHead_allspace (by simpa using hpend),
        noBulAuxP_allspace (by simpa using hpend)⟩
    · rw [sbA_nil]; rfl
  | succ n ih =>
    intro l hl
    cases l with
    | nil =>
      constructor
      · intro pend hpend
        rw [sbA_nil, noBul, Bool.and_eq_true]
        exact ⟨noStarHead_allspace (by simpa using hpend),
          noBulAuxP_allspace (by simpa using hpend)⟩
      · rw [sbA_nil]; rfl
    | cons c rest =>
      have hrl : rest.length ≤ n := by simp at hl; omega
      constructor
      · intro pend hpend
        by_cases hstar : c = '*'
        · subst hstar
          cases rest with
          | nil =>
            rw [sbA_anch_star_nil, noBul, Bool.and_eq_true]
            have hs1 : noStarHead ['*'] = true := noStarHead_star_other [] (by simp)
            constructor
            · rw [noStarHead_append_allspace ['*'] (by simpa using hpend)]
              exact hs1
            · exact noBulAuxP_append_allspace (by simpa using hpend) hs1
                (by rw [noBulAuxP_cons [] (by decide)]; rfl)
          | cons c2 r =>
            by_cases hsp : c2 = ' '
            · subst hsp
              rw [sbA_anch_star_sp, noBul, Bool.and_eq_true]
              constructor
              · exact noStarHead_cons_nonsp _ (by decide) (by decide)
              · rw [noBulAuxP_cons _ (by decide), noBulAuxP_cons _ (by decide)]
                exact (ih r (by simp at hl; omega)).2
            · rw [sbA_anch_star_other c2 pend r hsp, noBul, Bool.and_eq_true]
              have hhead : (sbA false [] (c2 :: r)).head? ≠ some ' ' := by
                rw [sbA_false_head]
                simp [hsp]
              have hs1 : noStarHead ('*' :: sbA false [] (c2 :: r)) = true :=
                noStarHead_star_other _ hhead
              have hs2 : noBulAuxP ('*' :: sbA false [] (c2 :: r)) = true := by
                rw [noBulAuxP_cons _ (by decide)]
                exact (ih (c2 :: r) hrl).2
              constructor
              · rw [noStarHead_append_allspace _ (by simpa using hpend)]
                exact hs1
              · exact noBulAuxP_append_allspace (by simpa using hpend) hs1 hs2
        · by_cases hspc : isSpc c = true
          · rw [sbA_anch_sp c pend rest hspc hstar]
            exact (ih rest hrl).1 (c :: pend) (by simp [hpend, hspc])
          · rw [sbA_anch_other c pend rest (Bool.of_not_eq_true hspc) hstar,
              noBul, Bool.and_eq_true]
            have hcnl : c ≠ '\n' := nonspc_ne_nl (Bool.of_not_eq_true hspc)
            have hs1 : noStarHead (c :: sbA false [] rest) = true :=
              noStarHead_cons_nonsp _ (Bool.of_not_eq_true hspc) hstar
            have hs2 : noBulAuxP (c :: sbA false [] rest) = true := by
              rw [noBulAuxP_cons _ hcnl]
              exact (ih rest hrl).2
            constructor
            · rw [noStarHead_append_allspace _ (by simpa using hpend)]
              exact hs1
            · exact noBulAuxP_append_allspace (by simpa using hpend) hs1 hs2
      · by_cases hnl : c = '\n'
        · subst hnl
          rw [sbA_un_nl, noBulAuxP_cons_nl]
          have := (ih rest hrl).1 [] (by simp)
          rw [noBul, Bool.and_eq_true] at this
          rw [this.1, this.2]
          rfl
        · rw [sbA_un_other c [] rest hnl, noBulAuxP_cons _ hnl]
          exact (ih rest hrl).2

theorem subBullets_noBul (l : List Char) : noBul (subBullets l) = true :=
  (sbA_noBul l.length l le_rfl).1 [] (by simp)

theorem noBul_mathLines : ∀ {t : List Char}, noBul t = true → noBul (mathLines t) = true := by
  have main : ∀ t : List Char, noBul t = true → noBul (mathLines t) = true := by
    intro t
    induction t using lineInduction with
    | base line hl =>
      intro h
      rw [mathLines_nlfree hl, noBul, Bool.and_eq_true]
      constructor
      · by_cases hc : (hasOp (trim line) && !(trim line).isEmpty
            && !dollarWrapped (trim line)) = true
        · rw [mathLine_wrap hc]
          exact noStarHead_cons_nonsp _ (by decide) (by decide)
        · rw [mathLine_id (Bool.of_not_eq_true hc)]
          rw [noBul, Bool.and_eq_true] at h
          exact h.1
      · exact noBulAuxP_nlfree (nlfree_mathLine hl)
    | step line rest hl ih =>
      intro h
      rw [noBul, Bool.and_eq_true] at h
      obtain ⟨hnsh, hnba⟩ := h
      rw [noBulAuxP_append_nl rest hl, Bool.and_eq_true] at hnba
      have hIH : noBul (mathLines rest) = true := ih (by
        rw [noBul, Bool.and_eq_true]; exact hnba)
      rw [noBul, Bool.and_eq_true] at hIH
      rw [mathLines_append rest hl, noBul, Bool.and_eq_true]
      constructor
      · by_cases hc : (hasOp (trim line) && !(trim line).isEmpty
            && !dollarWrapped (trim line)) = true
        · rw [mathLine_wrap hc, List.cons_append]
          exact noStarHead_cons_nonsp _ (by decide) (by decide)
        · rw [mathLine_id (Bool.of_not_eq_true hc)]
          by_cases ha : line.all isSpc = true
          · rw [show line ++ '\n' :: mathLines rest
                = (line ++ ['\n']) ++ mathLines rest from by simp,
              noStarHead_append_allspace _ (by simp only [List.all_append, ha]; decide)]
            exact hIH.1
          · cases hdw : line.dropWhile isSpc with
            | nil =>
              exact absurd ((allspace_iff_trimL_nil line).mpr hdw) ha
            | cons x xs =>
              rw [noStarHead_append_of_dropWhile hdw ('\n' :: mathLines rest)]
              rw [noStarHead_append_of_dropWhile hdw ('\n' :: rest)] at hnsh
              have hx : isSpc x = false := dropWhile_head_false hdw
              by_cases hx2 : x = '*'
              · subst hx2
                cases xs with
                | nil =>
                  rw [List.nil_append]
                  exact noStarHead_star_other _ (by simp)
                | cons y ys =>
                  simp only [List.cons_append] at hnsh ⊢
                  by_cases hy : y = ' '
                  · subst hy
                    rw [noStarHead_star_sp] at hnsh
                    exact Bool.noConfusion hnsh
                  · exact noStarHead_star_other _ (by simp [hy])
              · exact noStarHead_cons_nonsp _ hx hx2
      · rw [noBulAuxP_append_nl _ (nlfree_mathLine hl), hIH.1, hIH.2]
        rfl
  exact fun {t} => main t

theorem noStarHead_trimR {l : List Char} (h : noStarHead l = true) :
    noStarHead (trimR l) = true := by
  induction l with
  | nil => exact h
  | cons c rest ih =>
    cases h' : trimR rest with
    | nil =>
      rw [trimR_cons_nil c h']
      by_cases hc : isSpc c
      · rw [if_pos hc]; rfl
      · rw [if_neg hc]
        by_cases hstar : c = '*'
        · subst hstar
          exact noStarHead_star_other [] (by simp)
        · exact noStarHead_cons_nonsp _ (Bool.of_not_eq_true hc) hstar
    | cons d r =>
      rw [trimR_cons_ne c (by simp [h'])]
      by_cases hc : isSpc c
      · rw [noStarHead_cons_sp _ hc]
        rw [noStarHead_cons_sp rest hc] at h
        exact ih h
      · by_cases hstar : c = '*'
        · subst hstar
          cases hrest : rest with
          | nil => rw [hrest] at h'; exact absurd h' (by simp [trimR])
          | cons y ys =>
            by_cases hy : y = ' '
            · subst hy
              rw [hrest, noStarHead_star_sp] at h
              exact Bool.noConfusion h
            · apply noStarHead_star_other
              rw [← hrest]
              rcases trimR_head? rest with h2 | h2
              · rw [h2] at h'; exact absurd h' (by simp)
              · rw [h2, hrest]
                simp [hy]
        · exact noStarHead_cons_nonsp _ (Bool.of_not_eq_true hc) hstar

theorem noBulAuxP_trimR {l : List Char} (h : noBulAuxP l = true) :
    noBulAuxP (trimR l) = true := by
  induction l with
  | nil => exact h
  | cons c rest ih =>
    cases h' : trimR rest with
    | nil =>
      rw [trimR_cons_nil c h']
      by_cases hc : isSpc c
      · rw [if_pos hc]; rfl
      · rw [if_neg hc]
        by_cases hnl : c = '\n'
        · subst hnl
          rw [noBulAuxP_cons_nl]; rfl
        · rw [noBulAuxP_cons _ hnl]; rfl
    | cons d r =>
      rw [trimR_cons_ne c (by simp [h'])]
      by_cases hnl : c = '\n'
      · subst hnl
        rw [noBulAuxP_cons_nl] at h ⊢
        rw [Bool.and_eq_true] at h
        rw [noStarHead_trimR h.1, ih h.2]
        rfl
      · rw [noBulAuxP_cons _ hnl] at h ⊢
        exact ih h

theorem noBul_trim {l : List Char} (h : noBul l = true) : noBul (trim l) = true := by
  rw [noBul, Bool.and_eq_true] at h
  have h1 : noStarHead (trimL l) = true := by rw [noStarHead_trimL]; exact h.1
  have h2 : noBulAuxP (trimL l) = true := noBulAuxP_trimL h.2
  show noBul (trimR (trimL l)) = true
  rw [noBul, Bool.and_eq_true]
  exact ⟨noStarHead_trimR h1, noBulAuxP_trimR h2⟩

/-- Idempotence of the whole postprocessor on inputs free of code fences
and of the data-URI literal.  Such inputs are never touched by the
base64-image substitution or the fence removal (in either pass), and the
bullet rewrite and math wrapping reach fixpoints after one pass. -/
theorem postprocessL_idem {x : List Char} (hf : hasSub fence3 x = false)
    (hb : hasSub b64lit x = false) : postprocessL (postprocessL x) = postprocessL x := by
  have hqf : ∀ c ∈ fence3, isSpc c = false ∧ c ≠ '-' ∧ c ≠ '*' := by decide
  have hqb : ∀ c ∈ b64lit, isSpc c = false ∧ c ≠ '-' ∧ c ≠ '*' := by decide
  have hfne : fence3 ≠ ([] : List Char) := by decide
  have hbne : b64lit ≠ ([] : List Char) := by decide
  have hfnl : '\n' ∉ fence3 := by decide
  have hfdl : '$' ∉ fence3 := by decide
  have hbnl : '\n' ∉ b64lit := by decide
  have hbdl : '$' ∉ b64lit := by decide
  have h1 : subB64 x = x := subB64_id x hb
  have hfz2 : hasSub fence3 (subBullets x) = false := by
    cases hcase : hasSub fence3 (subBullets x) with
    | false => rfl
    | true =>
      have := subBullets_pullback hfne hqf hcase
      rw [hf] at this
      exact Bool.noConfusion this
  have hbz2 : hasSub b64lit (subBullets x) = false := by
    cases hcase : hasSub b64lit (subBullets x) with
    | false => rfl
    | true =>
      have := subBullets_pullback hbne hqb hcase
      rw [hb] at this
      exact Bool.noConfusion this
  have hfz3 : hasSub fence3 (mathLines (subBullets x)) = false := by
    cases hcase : hasSub fence3 (mathLines (subBullets x)) with
    | false => rfl
    | true =>
      have := mathLines_pullback hfnl hfdl hfne hcase
      rw [hfz2] at this
      exact Bool.noConfusion this
  have hbz3 : hasSub b64lit (mathLines (subBullets x)) = false := by
    cases hcase : hasSub b64lit (mathLines (subBullets x)) with
    | false => rfl
    | true =>
      have := mathLines_pullback hbnl hbdl hbne hcase
      rw [hbz2] at this
      exact Bool.noConfusion this
  have hticks : removeTicks (mathLines (subBullets x)) = mathLines (subBullets x) :=
    removeTicks_id _ hfz3
  have hpp1 : postprocessL x = trim (mathLines (subBullets x)) := by
    unfold postprocessL
    rw [h1, hticks]
  have hfy : hasSub fence3 (trim (mathLines (subBullets x))) = false := by
    cases hcase : hasSub fence3 (trim (mathLines (subBullets x))) with
    | false => rfl
    | true =>
      have := trim_pullback hcase
      rw [hfz3] at this
      exact Bool.noConfusion this
  have hby : hasSub b64lit (trim (mathLines (subBullets x))) = false := by
    cases hcase : hasSub b64lit (trim (mathLines (subBullets x))) with
    | false => rfl
    | true =>
      have := trim_pullback hcase
      rw [hbz3] at this
      exact Bool.noConfusion this
  have hnby : noBul (trim (mathLines (subBullets x))) = true :=
    noBul_trim (noBul_mathLines (subBullets_noBul x))
  have hmy : mathLines (trim (mathLines (subBullets x)))
      = trim (mathLines (subBullets x)) := by
    rw [trim_mathLines_comm, mathLines_idem, ← trim_mathLines_comm]
  rw [hpp1]
  show trim (removeTicks (mathLines (subBullets
    (subB64 (trim (mathLines (subBullets x)))))))
    = trim (mathLines (subBullets x))
  rw [subB64_id _ hby, subBullets_id hnby, hmy, removeTicks_id _ hfy]
  exact trim_idem _

/-- C3 counterexample.  `postprocess_markdown` is not idempotent: on the
input made of a code fence followed by `* a`, the first pass removes the
backticks (exposing a bullet at the start of the text) and leaves `* a`;
the second pass then rewrites the now-anchored bullet to `- a`.  The
sixth rule (fence removal) can expose text that the second rule (bullet
normalisation) of a following pass rewrites, so one application is not a
fixpoint. -/
theorem postprocess_markdown_not_idempotent :
    postprocess_markdown "```* a" = "* a" ∧
    postprocess_markdown (postprocess_markdown "```* a") = "- a" ∧
    postprocess_markdown (postprocess_markdown "```* a") ≠ postprocess_markdown "```* a" := by
  have e1 : postprocess_markdown "```* a" = "* a" := by
    unfold postprocess_markdown postprocessL
    rw [subB64_id _ (by decide), subBullets_id (by decide)]
    rfl
  have e2 : postprocess_markdown "* a" = "- a" := by
    unfold postprocess_markdown postprocessL
    rw [subB64_id _ (by decide)]
    rw [show subBullets "* a".toList = "- a".toList from by
      unfold subBullets
      rw [show ("* a".toList : List Char) = '*' :: ' ' :: ['a'] from rfl]
      rw [sbA_anch_star_sp]
      rw [sbA_un_other 'a' [] [] (by decide), sbA_nil]
      rfl]
    rfl
  refine ⟨e1, by rw [e1]; exact e2, ?_⟩
  rw [e1, e2]
  intro hcon
  exact absurd (congrArg String.toList hcon) (by decide)

/-- C3 (amended).  The postprocessor is idempotent on every input that
contains no triple-backtick fence and no occurrence of the literal
`data:image/`: for such content a second application of
`postprocess_markdown` returns its argument unchanged.  (On general
inputs idempotence fails: removing a code fence can expose a `* ` bullet
or a `data:image/…` URI that only the next pass rewrites.) -/
theorem postprocess_markdown_idempotent_on_clean (s : String)
    (hf : hasSub fence3 s.toList = false)
    (hb : hasSub b64lit s.toList = false) :
    postprocess_markdown (postprocess_markdown s) = postprocess_markdown s := by
  show String.mk (postprocessL (String.mk (postprocessL s.toList)).toList)
    = String.mk (postprocessL s.toList)
  have hmk : (String.mk (postprocessL s.toList)).toList = postprocessL s.toList := rfl
  rw [hmk, postprocessL_idem hf hb]

/-- Witness for the amended C3 on a concrete fence-free input. -/
theorem postprocess_markdown_idempotent_on_clean_witness :
    hasSub fence3 "x + y".toList = false ∧ hasSub b64lit "x + y".toList = false ∧
    postprocess_markdown (postprocess_markdown "x + y") = postprocess_markdown "x + y" :=
  ⟨by decide, by decide,
    postprocess_markdown_idempotent_on_clean "x + y" (by decide) (by decide)⟩

end DP
